import Mathlib

/-!
Verification of the interactive Ollama chat clients
(`gemma_interactive.py` / `phi_interactive.py`).

The embedding models byte/character sequences as `List Char`, JSON documents
as the inductive `Json` below, and the stateful pieces (conversation history,
session model name) by explicit state passing.  External collaborators are
modelled at their observable contract:

* `json.loads` / `json.dump` from the Python standard library are modelled by
  `jsonLoads` / `renderJson` over the JSON subset the program exchanges
  (objects, arrays, strings with escapes, integers, booleans, null;
  `indent=2, ensure_ascii=False` pretty printing as the C encoder produces it).
* `requests.Response.iter_lines` is modelled by `iter_lines` below, following
  the reference implementation of `requests` (pending-buffer reassembly of
  chunks, newline-delimited; the model restricts the universal-newline split
  to the LF delimiter that frames Ollama stream records).
-/

namespace OllamaChat

/-- JSON values as produced by `json.loads`: an object keeps its fields in
parse order and may contain a repeated key; lookup takes the last occurrence,
as a Python `dict` built by repeated insertion does. -/
inductive Json where
  | null : Json
  | bool (b : Bool) : Json
  | num (n : Int) : Json
  | str (s : List Char) : Json
  | arr (xs : List Json) : Json
  | obj (fields : List (List Char × Json)) : Json

mutual

/-- Structural equality test on JSON values.  Written by hand because the
nested `List` positions fall outside the automatic `DecidableEq` derivation. -/
def Json.beq : Json → Json → Bool
  | .null, .null => true
  | .bool a, .bool b => a = b
  | .num a, .num b => a = b
  | .str a, .str b => a = b
  | .arr a, .arr b => Json.beqList a b
  | .obj a, .obj b => Json.beqFields a b
  | _, _ => false

/-- Elementwise equality test on JSON arrays. -/
def Json.beqList : List Json → List Json → Bool
  | [], [] => true
  | x :: xs, y :: ys => Json.beq x y && Json.beqList xs ys
  | _, _ => false

/-- Elementwise equality test on JSON object field lists. -/
def Json.beqFields : List (List Char × Json) → List (List Char × Json) → Bool
  | [], [] => true
  | (k, v) :: xs, (l, w) :: ys => k = l && Json.beq v w && Json.beqFields xs ys
  | _, _ => false

end

mutual

theorem Json.beq_iff : ∀ a b : Json, Json.beq a b = true ↔ a = b
  | .null, .null => by simp [Json.beq]
  | .bool _, .bool _ => by simp [Json.beq]
  | .num _, .num _ => by simp [Json.beq]
  | .str _, .str _ => by simp [Json.beq]
  | .arr x, .arr y => by simp [Json.beq, Json.beqList_iff x y]
  | .obj x, .obj y => by simp [Json.beq, Json.beqFields_iff x y]
  | .null, .bool _ | .null, .num _ | .null, .str _ | .null, .arr _ | .null, .obj _
  | .bool _, .null | .bool _, .num _ | .bool _, .str _ | .bool _, .arr _ | .bool _, .obj _
  | .num _, .null | .num _, .bool _ | .num _, .str _ | .num _, .arr _ | .num _, .obj _
  | .str _, .null | .str _, .bool _ | .str _, .num _ | .str _, .arr _ | .str _, .obj _
  | .arr _, .null | .arr _, .bool _ | .arr _, .num _ | .arr _, .str _ | .arr _, .obj _
  | .obj _, .null | .obj _, .bool _ | .obj _, .num _ | .obj _, .str _ | .obj _, .arr _ => by
    simp [Json.beq]

theorem Json.beqList_iff : ∀ xs ys : List Json, Json.beqList xs ys = true ↔ xs = ys
  | [], [] => by simp [Json.beqList]
  | x :: xs, y :: ys => by
    simp [Json.beqList, Json.beq_iff x y, Json.beqList_iff xs ys]
  | [], _ :: _ => by simp [Json.beqList]
  | _ :: _, [] => by simp [Json.beqList]

theorem Json.beqFields_iff :
    ∀ xs ys : List (List Char × Json), Json.beqFields xs ys = true ↔ xs = ys
  | [], [] => by simp [Json.beqFields]
  | (k, v) :: xs, (l, w) :: ys => by
    simp [Json.beqFields, Json.beq_iff v w, Json.beqFields_iff xs ys]
  | [], _ :: _ => by simp [Json.beqFields]
  | _ :: _, [] => by simp [Json.beqFields]

end

instance : DecidableEq Json := fun a b =>
  decidable_of_iff (Json.beq a b = true) (Json.beq_iff a b)

/-- Lookup in an object's field list, last occurrence winning, which matches
the value a Python `dict` holds after `json.loads` inserts a repeated key. -/
def objLookup : List (List Char × Json) → List Char → Option Json
  | [], _ => none
  | (k, v) :: fs, key =>
    match objLookup fs key with
    | some w => some w
    | none => if k = key then some v else none

/-- Model of `dict.get(key, default)`. -/
def objLookupD (fs : List (List Char × Json)) (key : List Char) (d : Json) : Json :=
  (objLookup fs key).getD d

/-- Python truthiness of a JSON-decoded value (`if x:`): `None`, `False`, `0`,
empty string, empty list and empty dict are falsy, everything else truthy. -/
def pyTruthy : Json → Bool
  | .null => false
  | .bool b => b
  | .num n => n != 0
  | .str s => !s.isEmpty
  | .arr xs => !xs.isEmpty
  | .obj fs => !fs.isEmpty

/-- Model of Python `len()` on a JSON-decoded value: defined on lists, strings
and dicts, raises `TypeError` (here `none`) on numbers, booleans and `None`. -/
def pyLen : Json → Option Nat
  | .arr xs => some xs.length
  | .str s => some s.length
  | .obj fs => some fs.length
  | _ => none

section LineSplitting

/-- Prepend a character onto the first (partial) line of a split. -/
def consLine (c : Char) : List (List Char) → List (List Char)
  | [] => [[c]]
  | l :: ls => (c :: l) :: ls

/-- Split a character sequence at LF delimiters, the way
`bytes.splitlines` does on LF-framed input: `"a\n"` gives `["a"]`,
`"a\nb"` gives `["a", "b"]`, `""` gives `[]`. -/
def splitLines : List Char → List (List Char)
  | [] => []
  | c :: rest =>
    if c = '\n' then [] :: splitLines rest else consLine c (splitLines rest)

theorem consLine_ne_nil (c : Char) (ls : List (List Char)) : consLine c ls ≠ [] := by
  cases ls <;> simp [consLine]

theorem splitLines_ne_nil {s : List Char} (h : s ≠ []) : splitLines s ≠ [] := by
  match s with
  | c :: rest =>
    unfold splitLines
    by_cases hc : c = '\n' <;> simp [hc, consLine_ne_nil]

theorem splitLines_no_newline {s : List Char} {l : List Char}
    (hl : l ∈ splitLines s) : '\n' ∉ l := by
  induction s generalizing l with
  | nil => simp [splitLines] at hl
  | cons c rest ih =>
    unfold splitLines at hl
    by_cases hc : c = '\n'
    · simp [hc] at hl
      rcases hl with h | h
      · simp [h]
      · exact ih h
    · simp [hc] at hl
      cases hrest : splitLines rest with
      | nil =>
        rw [hrest] at hl
        simp [consLine] at hl
        subst hl
        simp
        exact fun h => hc h.symm
      | cons t ts =>
        rw [hrest] at hl
        simp [consLine] at hl
        rcases hl with h | h
        · subst h
          intro hmem
          simp at hmem
          rcases hmem with h | h
          · exact hc h.symm
          · exact ih (l := t) (by rw [hrest]; simp) h
        · exact ih (by rw [hrest]; simp [h])

/-- A nonempty sequence without any LF is a single line. -/
theorem splitLines_single {s : List Char} (hne : s ≠ []) (hnl : '\n' ∉ s) :
    splitLines s = [s] := by
  induction s with
  | nil => exact absurd rfl hne
  | cons c rest ih =>
    have hc : c ≠ '\n' := fun h => hnl (by simp [h])
    unfold splitLines
    simp [hc]
    cases hr : rest with
    | nil => simp [hr, splitLines, consLine]
    | cons d ds =>
      rw [← hr, ih (by simp [hr]) (fun h => hnl (by simp [h]))]
      simp [consLine]

theorem mem_of_getLast?_eq {α : Type} {l : List α} {a : α}
    (h : l.getLast? = some a) : a ∈ l := by
  induction l with
  | nil => simp at h
  | cons x xs ih =>
    cases xs with
    | nil =>
      simp at h
      simp [h]
    | cons y ys =>
      rw [List.getLast?_cons_cons] at h
      exact List.mem_cons_of_mem x (ih h)

/-- When the input does not end with an LF, the split ends with a nonempty
partial line whose last character is the input's last character. -/
theorem splitLines_last_open : ∀ (s : List Char), s ≠ [] →
    s.getLast? ≠ some '\n' →
    ∃ l, (splitLines s).getLast? = some l ∧ l ≠ [] ∧ l.getLast? = s.getLast?
  | [c], _, hnl => by
    have hc : c ≠ '\n' := by simpa using hnl
    refine ⟨[c], ?_, by simp, by simp⟩
    simp [splitLines, hc, consLine]
  | c :: d :: rest, _, hnl => by
    have hne2 : (d :: rest) ≠ [] := by simp
    have hnl2 : (d :: rest).getLast? ≠ some '\n' := by
      rwa [List.getLast?_cons_cons] at hnl
    obtain ⟨l, h1, h2, h3⟩ := splitLines_last_open (d :: rest) hne2 hnl2
    by_cases hc : c = '\n'
    · refine ⟨l, ?_, h2, ?_⟩
      · rw [show splitLines (c :: d :: rest) = [] :: splitLines (d :: rest) by
          simp [splitLines, hc]]
        rw [List.getLast?_cons, h1]
        rfl
      · rw [h3, List.getLast?_cons_cons]
    · cases hsp : splitLines (d :: rest) with
      | nil => exact absurd hsp (splitLines_ne_nil hne2)
      | cons m ms =>
        have hstep : splitLines (c :: d :: rest) = (c :: m) :: ms := by
          show (if c = '\n' then [] :: splitLines (d :: rest)
                else consLine c (splitLines (d :: rest))) = (c :: m) :: ms
          rw [if_neg hc, hsp]
          rfl
        rw [hsp] at h1
        cases ms with
        | nil =>
          simp at h1
          subst h1
          refine ⟨c :: m, by simp [hstep], by simp, ?_⟩
          cases m with
          | nil => exact absurd rfl h2
          | cons a as =>
            rw [List.getLast?_cons_cons, List.getLast?_cons_cons]
            exact h3
        | cons m2 ms2 =>
          rw [List.getLast?_cons_cons] at h1
          refine ⟨l, ?_, h2, by rw [h3, List.getLast?_cons_cons]⟩
          rw [hstep, List.getLast?_cons_cons]
          exact h1

theorem splitLines_cons (c : Char) (s : List Char) :
    splitLines (c :: s) =
      if c = '\n' then [] :: splitLines s else consLine c (splitLines s) := rfl

theorem splitLines_cons_nl (s : List Char) :
    splitLines ('\n' :: s) = [] :: splitLines s := by
  simp [splitLines_cons]

theorem splitLines_cons_of_ne {c : Char} (hc : c ≠ '\n') (s : List Char) :
    splitLines (c :: s) = consLine c (splitLines s) := by
  simp [splitLines_cons, hc]

/-- Appending after a sequence that ends on an LF splits independently. -/
theorem splitLines_append_newline : ∀ (s t : List Char),
    s.getLast? = some '\n' → splitLines (s ++ t) = splitLines s ++ splitLines t
  | [], _, h => by simp at h
  | [c], t, h => by
    have hc : c = '\n' := by simpa using h
    subst hc
    simp [splitLines_cons_nl, splitLines]
  | c :: d :: rest, t, h => by
    have h2 : (d :: rest).getLast? = some '\n' := by
      rwa [List.getLast?_cons_cons] at h
    have ih := splitLines_append_newline (d :: rest) t h2
    by_cases hc : c = '\n'
    · subst hc
      rw [List.cons_append, splitLines_cons_nl, ih, splitLines_cons_nl,
        List.cons_append]
    · rw [List.cons_append, splitLines_cons_of_ne hc, ih,
        splitLines_cons_of_ne hc]
      cases hsp : splitLines (d :: rest) with
      | nil => exact absurd hsp (splitLines_ne_nil (by simp))
      | cons m ms => simp [consLine]

/-- Appending after a sequence that ends mid-line merges the partial last
line with the continuation. -/
theorem splitLines_append_open : ∀ (s t l : List Char),
    s.getLast? ≠ some '\n' → (splitLines s).getLast? = some l →
    splitLines (s ++ t) = (splitLines s).dropLast ++ splitLines (l ++ t)
  | [], _, l, _, hl => by simp [splitLines] at hl
  | [c], t, l, h, hl => by
    have hc : c ≠ '\n' := by simpa using h
    have hone : splitLines [c] = [[c]] := by
      rw [splitLines_cons_of_ne hc]
      rfl
    rw [hone] at hl
    simp at hl
    subst hl
    rw [hone]
    simp
  | c :: d :: rest, t, l, h, hl => by
    have h2 : (d :: rest).getLast? ≠ some '\n' := by
      rwa [List.getLast?_cons_cons] at h
    obtain ⟨m, hm, hmne, hml⟩ := splitLines_last_open (d :: rest) (by simp) h2
    have ih := splitLines_append_open (d :: rest) t m h2 hm
    by_cases hc : c = '\n'
    · subst hc
      rw [splitLines_cons_nl] at hl
      cases hsp : splitLines (d :: rest) with
      | nil => exact absurd hsp (splitLines_ne_nil (by simp))
      | cons m1 ms =>
        rw [hsp, List.getLast?_cons_cons] at hl
        rw [hsp] at hm
        have hlm : l = m := by
          rw [hl] at hm
          exact Option.some_injective _ hm
        subst hlm
        rw [List.cons_append, splitLines_cons_nl, ih, hsp, splitLines_cons_nl,
          hsp]
        simp
    · cases hsp : splitLines (d :: rest) with
      | nil => exact absurd hsp (splitLines_ne_nil (by simp))
      | cons m1 ms =>
        have hstep : splitLines (c :: d :: rest) = (c :: m1) :: ms := by
          rw [splitLines_cons_of_ne hc, hsp]
          rfl
        rw [hstep] at hl
        rw [hsp] at hm ih
        cases ms with
        | nil =>
          have hm1 : m1 = m := by simpa using hm
          have hlm : c :: m1 = l := by simpa using hl
          subst hm1
          subst hlm
          rw [List.cons_append, splitLines_cons_of_ne hc, ih, hstep]
          simp [List.cons_append, splitLines_cons_of_ne hc]
        | cons m2 ms2 =>
          rw [List.getLast?_cons_cons] at hl hm
          have hlm : l = m := by
            rw [hl] at hm
            exact Option.some_injective _ hm
          subst hlm
          rw [List.cons_append, splitLines_cons_of_ne hc, ih, hstep]
          simp [consLine]

/-- One step of `requests.Response.iter_lines` on an incoming chunk: prepend
the pending partial line, split at delimiters, and hold back the last piece
as the new pending buffer when the combined chunk ends mid-line (the
`lines[-1][-1] == chunk[-1]` test of the reference implementation). -/
def iterLinesStep (pending : Option (List Char)) (chunk : List Char) :
    List (List Char) × Option (List Char) :=
  let ch := pending.getD [] ++ chunk
  let lines := splitLines ch
  match lines.getLast?, ch.getLast? with
  | some l, some c =>
    if l.getLast? = some c then (lines.dropLast, some l) else (lines, none)
  | _, _ => (lines, none)

/-- Drive `iterLinesStep` over the whole chunk sequence; the pending buffer
left at the end of the stream is yielded as a final line. -/
def iterLinesGo : Option (List Char) → List (List Char) → List (List Char)
  | pending, [] =>
    match pending with
    | none => []
    | some p => [p]
  | pending, chunk :: rest =>
    (iterLinesStep pending chunk).1 ++ iterLinesGo (iterLinesStep pending chunk).2 rest

/-- Model of `requests.Response.iter_lines`: the line sequence produced from
a stream of byte chunks. -/
def iter_lines (chunks : List (List Char)) : List (List Char) :=
  iterLinesGo none chunks

/-- Invariant of the pending buffer: when set it is nonempty and free of
delimiters. -/
def PendingInv : Option (List Char) → Prop
  | none => True
  | some p => p ≠ [] ∧ '\n' ∉ p

theorem iterLinesStep_nil {pending : Option (List Char)} {chunk : List Char}
    (h : pending.getD [] ++ chunk = []) : iterLinesStep pending chunk = ([], none) := by
  simp [iterLinesStep, h, splitLines]

theorem iterLinesStep_endnl {pending : Option (List Char)} {chunk : List Char}
    (hnl : (pending.getD [] ++ chunk).getLast? = some '\n') :
    iterLinesStep pending chunk = (splitLines (pending.getD [] ++ chunk), none) := by
  cases hll : (splitLines (pending.getD [] ++ chunk)).getLast? with
  | none => simp [iterLinesStep, hll, hnl]
  | some l =>
    have hno := splitLines_no_newline (mem_of_getLast?_eq hll)
    have hcond : l.getLast? ≠ some '\n' := fun h => hno (mem_of_getLast?_eq h)
    simp [iterLinesStep, hll, hnl, hcond]

theorem iterLinesStep_open {pending : Option (List Char)} {chunk l : List Char}
    (hne : pending.getD [] ++ chunk ≠ [])
    (hll : (splitLines (pending.getD [] ++ chunk)).getLast? = some l)
    (hlast : l.getLast? = (pending.getD [] ++ chunk).getLast?) :
    iterLinesStep pending chunk =
      ((splitLines (pending.getD [] ++ chunk)).dropLast, some l) := by
  cases hc0 : (pending.getD [] ++ chunk).getLast? with
  | none =>
    rw [List.getLast?_eq_none_iff] at hc0
    exact absurd hc0 hne
  | some c0 =>
    rw [hc0] at hlast
    simp [iterLinesStep, hll, hc0, hlast]

/-- Reassembling chunks through the pending buffer yields exactly the lines
of the concatenated byte sequence. -/
theorem iterLinesGo_eq : ∀ (cs : List (List Char)) (pending : Option (List Char)),
    PendingInv pending →
    iterLinesGo pending cs = splitLines (pending.getD [] ++ cs.flatten)
  | [], none, _ => by simp [iterLinesGo, splitLines]
  | [], some p, hp => by
    show [p] = splitLines (p ++ List.flatten [])
    rw [show List.flatten ([] : List (List Char)) = [] from rfl, List.append_nil]
    exact (splitLines_single hp.1 hp.2).symm
  | chunk :: rest, pending, hp => by
    by_cases hch : pending.getD [] ++ chunk = []
    · have hpd : pending.getD [] = [] := (List.append_eq_nil.mp hch).1
      have hc : chunk = [] := (List.append_eq_nil.mp hch).2
      have ih := iterLinesGo_eq rest none trivial
      calc iterLinesGo pending (chunk :: rest)
          = (iterLinesStep pending chunk).1 ++
              iterLinesGo (iterLinesStep pending chunk).2 rest := rfl
        _ = iterLinesGo none rest := by rw [iterLinesStep_nil hch]; simp
        _ = splitLines (pending.getD [] ++ (chunk :: rest).flatten) := by
            rw [ih, hpd, hc]
            simp
    · by_cases hnl : (pending.getD [] ++ chunk).getLast? = some '\n'
      · have ih := iterLinesGo_eq rest none trivial
        calc iterLinesGo pending (chunk :: rest)
            = (iterLinesStep pending chunk).1 ++
                iterLinesGo (iterLinesStep pending chunk).2 rest := rfl
          _ = splitLines (pending.getD [] ++ chunk) ++ iterLinesGo none rest := by
              rw [iterLinesStep_endnl hnl]
          _ = splitLines (pending.getD [] ++ chunk) ++ splitLines rest.flatten := by
              rw [ih]
              simp
          _ = splitLines ((pending.getD [] ++ chunk) ++ rest.flatten) :=
              (splitLines_append_newline _ _ hnl).symm
          _ = splitLines (pending.getD [] ++ (chunk :: rest).flatten) := by
              simp [List.append_assoc]
      · obtain ⟨l, hll, hlne, hlast⟩ := splitLines_last_open _ hch hnl
        have hinv : PendingInv (some l) :=
          ⟨hlne, splitLines_no_newline (mem_of_getLast?_eq hll)⟩
        have ih := iterLinesGo_eq rest (some l) hinv
        calc iterLinesGo pending (chunk :: rest)
            = (iterLinesStep pending chunk).1 ++
                iterLinesGo (iterLinesStep pending chunk).2 rest := rfl
          _ = (splitLines (pending.getD [] ++ chunk)).dropLast ++
                iterLinesGo (some l) rest := by
              rw [iterLinesStep_open hch hll hlast]
          _ = (splitLines (pending.getD [] ++ chunk)).dropLast ++
                splitLines (l ++ rest.flatten) := by
              rw [ih]
              rfl
          _ = splitLines ((pending.getD [] ++ chunk) ++ rest.flatten) :=
              (splitLines_append_open _ _ _ hnl hll).symm
          _ = splitLines (pending.getD [] ++ (chunk :: rest).flatten) := by
              simp [List.append_assoc]

/-- Reassembled lines depend only on the concatenation of the chunks. -/
theorem iter_lines_eq_flatten (chunks : List (List Char)) :
    iter_lines chunks = splitLines chunks.flatten := by
  simpa [iter_lines] using iterLinesGo_eq chunks none trivial

end LineSplitting

section JsonText

/-- JSON insignificant whitespace. -/
def isWs (c : Char) : Bool :=
  c = ' ' || c = '\n' || c = '\t' || c = '\r'

/-- Drop leading insignificant whitespace. -/
def skipWs : List Char → List Char
  | [] => []
  | c :: cs => if isWs c then skipWs cs else c :: cs

/-- Lower-case hexadecimal digit for a value below 16. -/
def hexChar (n : Nat) : Char :=
  if n < 10 then Char.ofNat (48 + n) else Char.ofNat (87 + n)

/-- Value of a hexadecimal digit, either case. -/
def hexVal (c : Char) : Option Nat :=
  if '0' ≤ c ∧ c ≤ '9' then some (c.toNat - 48)
  else if 'a' ≤ c ∧ c ≤ 'f' then some (c.toNat - 87)
  else if 'A' ≤ c ∧ c ≤ 'F' then some (c.toNat - 55)
  else none

/-- Resolution of a single-character escape sequence. -/
def unescapeChar (e : Char) : Option Char :=
  if e = '"' then some '"'
  else if e = '\\' then some '\\'
  else if e = '/' then some '/'
  else if e = 'b' then some (Char.ofNat 8)
  else if e = 'f' then some (Char.ofNat 12)
  else if e = 'n' then some '\n'
  else if e = 'r' then some '\r'
  else if e = 't' then some '\t'
  else none

/-- Parse the inside of a JSON string literal up to its closing quote,
resolving escapes; a raw control character or a bad escape is rejected, as
`json.loads` in strict mode rejects them. -/
def parseStringBody : List Char → Option (List Char × List Char)
  | [] => none
  | c :: rest =>
    if c = '"' then some ([], rest)
    else if c = '\\' then
      match rest with
      | [] => none
      | e :: rest2 =>
        if e = 'u' then
          match rest2 with
          | h1 :: h2 :: h3 :: h4 :: rest3 =>
            match hexVal h1, hexVal h2, hexVal h3, hexVal h4 with
            | some a, some b, some c2, some d =>
              (parseStringBody rest3).map fun p =>
                (Char.ofNat (((a * 16 + b) * 16 + c2) * 16 + d) :: p.1, p.2)
            | _, _, _, _ => none
          | _ => none
        else
          match unescapeChar e with
          | some c2 => (parseStringBody rest2).map fun p => (c2 :: p.1, p.2)
          | none => none
    else if c.toNat < 32 then none
    else (parseStringBody rest).map fun p => (c :: p.1, p.2)

/-- Decimal value of a digit run. -/
def digitsVal (ds : List Char) : Nat :=
  ds.foldl (fun a c => a * 10 + (c.toNat - 48)) 0

mutual

/-- Recursive-descent parse of one JSON value, modelling `json.loads` on the
subset the program exchanges (objects, arrays, strings, integers, booleans,
null).  The fuel bounds nesting depth and `input.length + 1` always
suffices. -/
def parseValue : Nat → List Char → Option (Json × List Char)
  | 0, _ => none
  | fuel + 1, s =>
    match skipWs s with
    | [] => none
    | c :: rest =>
      if c = '"' then (parseStringBody rest).map fun p => (.str p.1, p.2)
      else if c = '{' then
        match skipWs rest with
        | [] => none
        | c2 :: r =>
          if c2 = '}' then some (.obj [], r)
          else (parseMembers fuel rest).map fun p => (.obj p.1, p.2)
      else if c = '[' then
        match skipWs rest with
        | [] => none
        | c2 :: r =>
          if c2 = ']' then some (.arr [], r)
          else (parseElems fuel rest).map fun p => (.arr p.1, p.2)
      else if c = 't' then
        match rest with
        | 'r' :: 'u' :: 'e' :: r => some (.bool true, r)
        | _ => none
      else if c = 'f' then
        match rest with
        | 'a' :: 'l' :: 's' :: 'e' :: r => some (.bool false, r)
        | _ => none
      else if c = 'n' then
        match rest with
        | 'u' :: 'l' :: 'l' :: r => some (.null, r)
        | _ => none
      else if c = '-' then
        match rest with
        | d :: _ =>
          if d.isDigit then
            some (.num (-(digitsVal (rest.takeWhile Char.isDigit) : Int)),
              rest.dropWhile Char.isDigit)
          else none
        | [] => none
      else if c.isDigit then
        some (.num (digitsVal ((c :: rest).takeWhile Char.isDigit) : Int),
          (c :: rest).dropWhile Char.isDigit)
      else none

/-- Parse the members of a nonempty JSON object after its opening brace. -/
def parseMembers : Nat → List Char → Option (List (List Char × Json) × List Char)
  | 0, _ => none
  | fuel + 1, s =>
    match skipWs s with
    | [] => none
    | c :: rest =>
      if c = '"' then
        match parseStringBody rest with
        | some (key, r1) =>
          match skipWs r1 with
          | [] => none
          | c2 :: r2 =>
            if c2 = ':' then
              match parseValue fuel r2 with
              | some (v, r3) =>
                match skipWs r3 with
                | [] => none
                | c3 :: r4 =>
                  if c3 = ',' then
                    (parseMembers fuel r4).map fun p => ((key, v) :: p.1, p.2)
                  else if c3 = '}' then some ([(key, v)], r4)
                  else none
              | none => none
            else none
        | none => none
      else none

/-- Parse the elements of a nonempty JSON array after its opening bracket. -/
def parseElems : Nat → List Char → Option (List Json × List Char)
  | 0, _ => none
  | fuel + 1, s =>
    match parseValue fuel s with
    | some (v, r1) =>
      match skipWs r1 with
      | [] => none
      | c :: r2 =>
        if c = ',' then (parseElems fuel r2).map fun p => (v :: p.1, p.2)
        else if c = ']' then some ([v], r2)
        else none
    | none => none

end

/-- Model of `json.loads`: the whole input must be one JSON document,
possibly padded by whitespace. -/
def jsonLoads (s : List Char) : Option Json :=
  match parseValue (s.length + 1) s with
  | some (v, r) => if skipWs r = [] then some v else none
  | none => none

example : jsonLoads ("\x7b\"response\":\"He\"\x7d").toList =
    some (.obj [(("response").toList, .str ("He").toList)]) := by rfl

example : jsonLoads ("\x7b\"done\":true\x7d").toList =
    some (.obj [(("done").toList, .bool true)]) := by rfl

example : jsonLoads ("5").toList = some (.num 5) := by rfl

example : jsonLoads ("\x7b\"respons").toList = none := by rfl

end JsonText

section StreamDecoder

/-- Terminal status of the streaming loop in `stream_message`: `done` when a
record with a truthy `done` field broke the loop, `exhausted` when the line
sequence ended first, and `crashed` when a line parsed to a non-object value,
on which `'response' in data` or `data.get` raises an uncaught `TypeError` or
`AttributeError` (only `json.JSONDecodeError` is caught in the loop). -/
inductive StreamEnd where
  | done : StreamEnd
  | exhausted : StreamEnd
  | crashed : StreamEnd
  deriving DecidableEq, Repr

/-- Fragments printed for one parsed record: the `response` value when the
key is present (`if 'response' in data: print(data['response'], ...)`). -/
def processRecord (fields : List (List Char × Json)) : List Json :=
  match objLookup fields ("response").toList with
  | some v => [v]
  | none => []

/-- The record loop of `stream_message` (`gemma_interactive.py` lines
129-138, `phi_interactive.py` lines 77-86) over the decoded line sequence:
empty lines are skipped (`if line:`), unparseable lines are skipped
(`except json.JSONDecodeError: continue`), object records yield their
`response` value and a truthy `done` breaks the loop. -/
def decodeLines : List (List Char) → List Json × StreamEnd
  | [] => ([], .exhausted)
  | line :: rest =>
    if line.isEmpty then decodeLines rest
    else
      match jsonLoads line with
      | none => decodeLines rest
      | some (.obj fields) =>
        if pyTruthy (objLookupD fields ("done").toList (.bool false))
        then (processRecord fields, .done)
        else (processRecord fields ++ (decodeLines rest).1, (decodeLines rest).2)
      | some _ => ([], .crashed)

/-- The full decoder: `iter_lines` reassembly followed by the record loop. -/
def decodeStream (chunks : List (List Char)) : List Json × StreamEnd :=
  decodeLines (iter_lines chunks)

theorem decodeLines_cons (line : List Char) (rest : List (List Char)) :
    decodeLines (line :: rest) =
      if line.isEmpty then decodeLines rest
      else
        match jsonLoads line with
        | none => decodeLines rest
        | some (.obj fields) =>
          if pyTruthy (objLookupD fields ("done").toList (.bool false))
          then (processRecord fields, .done)
          else (processRecord fields ++ (decodeLines rest).1, (decodeLines rest).2)
        | some _ => ([], .crashed) := rfl

theorem decodeLines_cons_skip {line : List Char} (rest : List (List Char))
    (h : line.isEmpty = true ∨ jsonLoads line = none) :
    decodeLines (line :: rest) = decodeLines rest := by
  rcases h with h | h
  · rw [decodeLines_cons, if_pos h]
  · by_cases hline : line.isEmpty
    · rw [decodeLines_cons, if_pos hline]
    · rw [decodeLines_cons, if_neg hline, h]

theorem decodeLines_cons_obj_done {line : List Char}
    {fields : List (List Char × Json)} (rest : List (List Char))
    (h2 : jsonLoads line = some (.obj fields))
    (h3 : pyTruthy (objLookupD fields ("done").toList (.bool false)) = true) :
    decodeLines (line :: rest) = (processRecord fields, .done) := by
  have hline : ¬line.isEmpty = true := by
    intro hh
    rw [List.isEmpty_iff] at hh
    subst hh
    rw [show jsonLoads [] = none from rfl] at h2
    cases h2
  rw [decodeLines_cons, if_neg hline, h2]
  exact if_pos h3

theorem decodeLines_cons_obj_notdone {line : List Char}
    {fields : List (List Char × Json)} (rest : List (List Char))
    (h2 : jsonLoads line = some (.obj fields))
    (h3 : pyTruthy (objLookupD fields ("done").toList (.bool false)) = false) :
    decodeLines (line :: rest) =
      (processRecord fields ++ (decodeLines rest).1, (decodeLines rest).2) := by
  have hline : ¬line.isEmpty = true := by
    intro hh
    rw [List.isEmpty_iff] at hh
    subst hh
    rw [show jsonLoads [] = none from rfl] at h2
    cases h2
  have h3' : ¬pyTruthy (objLookupD fields ("done").toList (.bool false)) = true := by
    rw [h3]
    simp
  rw [decodeLines_cons, if_neg hline, h2]
  exact if_neg h3'

theorem decodeLines_cons_nonobj {line : List Char} {j : Json}
    (rest : List (List Char)) (h2 : jsonLoads line = some j)
    (h3 : ∀ fields, j ≠ .obj fields) :
    decodeLines (line :: rest) = ([], .crashed) := by
  have hline : ¬line.isEmpty = true := by
    intro hh
    rw [List.isEmpty_iff] at hh
    subst hh
    rw [show jsonLoads [] = none from rfl] at h2
    cases h2
  rw [decodeLines_cons, if_neg hline, h2]
  cases j with
  | obj fields => exact absurd rfl (h3 fields)
  | null => rfl
  | bool b => rfl
  | num n => rfl
  | str s => rfl
  | arr xs => rfl

/-- C3: the decoder's output depends only on the concatenation of the
incoming byte chunks, so any partition of the same bytes — including one
that splits mid-record — yields the same fragment sequence and the same
terminal status as feeding them as one unbroken chunk. -/
theorem decode_chunk_invariance (chunks : List (List Char)) :
    decodeStream chunks = decodeStream [chunks.flatten] := by
  unfold decodeStream
  rw [iter_lines_eq_flatten, iter_lines_eq_flatten]
  simp

/-- A prefix of lines that runs to exhaustion composes with the rest of the
stream by concatenating its fragments. -/
theorem decodeLines_append_exhausted {xs : List (List Char)} {fs : List Json}
    (h : decodeLines xs = (fs, .exhausted)) (ys : List (List Char)) :
    decodeLines (xs ++ ys) = (fs ++ (decodeLines ys).1, (decodeLines ys).2) := by
  induction xs generalizing fs with
  | nil =>
    have hfs : fs = [] := by
      have := congrArg Prod.fst h
      simpa [decodeLines] using this.symm
    subst hfs
    simp
  | cons line rest ih =>
    by_cases hline : line.isEmpty
    · rw [List.cons_append, decodeLines_cons_skip _ (Or.inl hline)]
      rw [decodeLines_cons_skip _ (Or.inl hline)] at h
      exact ih h
    · cases hj : jsonLoads line with
      | none =>
        rw [List.cons_append, decodeLines_cons_skip _ (Or.inr hj)]
        rw [decodeLines_cons_skip _ (Or.inr hj)] at h
        exact ih h
      | some j =>
        cases j with
        | obj fields =>
          cases hdone : pyTruthy (objLookupD fields ("done").toList (.bool false)) with
          | true =>
            rw [decodeLines_cons_obj_done rest hj hdone] at h
            exact absurd (congrArg Prod.snd h) (by simp)
          | false =>
            rw [decodeLines_cons_obj_notdone rest hj hdone] at h
            have h2 : (decodeLines rest).2 = .exhausted := by
              simpa using congrArg Prod.snd h
            have hfs : fs = processRecord fields ++ (decodeLines rest).1 := by
              simpa using (congrArg Prod.fst h).symm
            have hrest : decodeLines rest = ((decodeLines rest).1, .exhausted) := by
              rw [← h2]
            rw [List.cons_append,
              decodeLines_cons_obj_notdone (rest ++ ys) hj hdone, ih hrest]
            subst hfs
            simp
        | null =>
          rw [decodeLines_cons_nonobj rest hj (fun f hh => Json.noConfusion hh)] at h
          exact absurd (congrArg Prod.snd h) (by simp)
        | bool b =>
          rw [decodeLines_cons_nonobj rest hj (fun f hh => Json.noConfusion hh)] at h
          exact absurd (congrArg Prod.snd h) (by simp)
        | num n =>
          rw [decodeLines_cons_nonobj rest hj (fun f hh => Json.noConfusion hh)] at h
          exact absurd (congrArg Prod.snd h) (by simp)
        | str s =>
          rw [decodeLines_cons_nonobj rest hj (fun f hh => Json.noConfusion hh)] at h
          exact absurd (congrArg Prod.snd h) (by simp)
        | arr xs2 =>
          rw [decodeLines_cons_nonobj rest hj (fun f hh => Json.noConfusion hh)] at h
          exact absurd (congrArg Prod.snd h) (by simp)

/-- C5: as soon as the decoder parses a record whose `done` field is truthy,
the fragment sequence ends successfully at that record — its own `response`
fragment is still yielded — and nothing from any later line is yielded,
whatever remains in the stream. -/
theorem done_record_terminates (pre post : List (List Char)) (d : List Char)
    (fs : List Json) (fields : List (List Char × Json))
    (hpre : decodeLines pre = (fs, .exhausted))
    (hd : jsonLoads d = some (.obj fields))
    (hdone : pyTruthy (objLookupD fields ("done").toList (.bool false)) = true) :
    decodeLines (pre ++ d :: post) = (fs ++ processRecord fields, .done) := by
  rw [decodeLines_append_exhausted hpre, decodeLines_cons_obj_done post hd hdone]

/-- Witness for C5 at a concrete stream: `He` is yielded, the `done` record
also carries `!` which is yielded, and the record after the `done` record is
never decoded. -/
theorem done_record_terminates_witness :
    decodeLines [("\x7b\"response\":\"He\"\x7d").toList,
        ("\x7b\"done\":true,\"response\":\"!\"\x7d").toList,
        ("\x7b\"response\":\"xx\"\x7d").toList] =
      ([Json.str ("He").toList, Json.str ("!").toList], StreamEnd.done) :=
  done_record_terminates [("\x7b\"response\":\"He\"\x7d").toList]
    [("\x7b\"response\":\"xx\"\x7d").toList]
    ("\x7b\"done\":true,\"response\":\"!\"\x7d").toList
    [Json.str ("He").toList]
    [(("done").toList, Json.bool true), (("response").toList, Json.str ("!").toList)]
    (by rfl) (by rfl) (by rfl)

/-- C6 counterexample: the line `5` is valid JSON but not a structured
record; the claim says it is skipped and the remaining fragments still
yielded, but in the code `'response' in data` raises an uncaught `TypeError`
on an `int`, aborting the stream: the fragment `b` of the following record
is never yielded and the stream ends crashed, not done. -/
theorem malformed_line_aborts :
    decodeLines [("\x7b\"response\":\"a\"\x7d").toList, ("5").toList,
        ("\x7b\"response\":\"b\"\x7d").toList, ("\x7b\"done\":true\x7d").toList] =
      ([Json.str ("a").toList], StreamEnd.crashed) ∧
    decodeLines [("\x7b\"response\":\"a\"\x7d").toList,
        ("\x7b\"response\":\"b\"\x7d").toList, ("\x7b\"done\":true\x7d").toList] =
      ([Json.str ("a").toList, Json.str ("b").toList], StreamEnd.done) :=
  ⟨rfl, rfl⟩

/-- C6 amended: a line that fails to parse, and an object record carrying
neither a `response` nor a truthy `done` field, are skipped without
affecting the rest of the stream; but this tolerance does not extend to
lines parsing to non-object JSON values, which abort the loop. -/
theorem unparseable_or_fieldless_skipped (line : List Char) (rest : List (List Char))
    (h : jsonLoads line = none ∨
      ∃ fields, jsonLoads line = some (.obj fields) ∧
        objLookup fields ("response").toList = none ∧
        pyTruthy (objLookupD fields ("done").toList (.bool false)) = false) :
    decodeLines (line :: rest) = decodeLines rest := by
  rcases h with h | ⟨fields, hj, hresp, hdone⟩
  · exact decodeLines_cons_skip rest (Or.inr h)
  · rw [decodeLines_cons_obj_notdone rest hj hdone]
    have hpr : processRecord fields = [] := by
      unfold processRecord
      rw [hresp]
    rw [hpr]
    simp

/-- Witness for the amended C6: an empty object record is skipped. -/
theorem unparseable_or_fieldless_skipped_witness :
    decodeLines [("\x7b\x7d").toList, ("\x7b\"done\":true\x7d").toList] =
      decodeLines [("\x7b\"done\":true\x7d").toList] :=
  unparseable_or_fieldless_skipped _ _ (Or.inr ⟨[], by rfl, by rfl, by rfl⟩)

end StreamDecoder

section Serialization

/-- Escape of one character inside a JSON string literal, as the
`ensure_ascii=False` encoder of `json.dump` writes it: quote, backslash and
the named control shorthands get two-character escapes, the remaining
control characters a `\u00xx` escape, everything else stands for itself. -/
def escapeChar (c : Char) : List Char :=
  if c = '"' then ['\\', '"']
  else if c = '\\' then ['\\', '\\']
  else if c = '\n' then ['\\', 'n']
  else if c = '\t' then ['\\', 't']
  else if c = '\r' then ['\\', 'r']
  else if c.toNat = 8 then ['\\', 'b']
  else if c.toNat = 12 then ['\\', 'f']
  else if c.toNat < 32 then
    ['\\', 'u', '0', '0', hexChar (c.toNat / 16), hexChar (c.toNat % 16)]
  else [c]

/-- Escape of a whole string body. -/
def escapeStr : List Char → List Char
  | [] => []
  | c :: s => escapeChar c ++ escapeStr s

/-- Indentation prefix for `json.dump(..., indent=2)` at a nesting level. -/
def indentStr (lvl : Nat) : List Char :=
  List.replicate (2 * lvl) ' '

mutual

/-- Pretty-printed JSON text of a value as `json.dump(obj, indent=2,
ensure_ascii=False)` writes it: nonempty containers spread one item per
line at two spaces per level, empty containers print as `[]` / `{}`, and
members use `": "` after the key and `","` plus a newline between items. -/
def renderJson : Json → Nat → List Char
  | .null, _ => ('n' :: 'u' :: 'l' :: 'l' :: [])
  | .bool true, _ => ('t' :: 'r' :: 'u' :: 'e' :: [])
  | .bool false, _ => ('f' :: 'a' :: 'l' :: 's' :: 'e' :: [])
  | .num n, _ => (toString n).toList
  | .str s, _ => '"' :: (escapeStr s ++ ['"'])
  | .arr [], _ => ('[' :: ']' :: [])
  | .arr (x :: xs), lvl =>
    '[' :: '\n' ::
      (renderElemsJson (x :: xs) (lvl + 1) ++ '\n' :: (indentStr lvl ++ [']']))
  | .obj [], _ => ('{' :: '}' :: [])
  | .obj (f :: fs), lvl =>
    '{' :: '\n' ::
      (renderFieldsJson (f :: fs) (lvl + 1) ++ '\n' :: (indentStr lvl ++ ['}']))

/-- Render the elements of a nonempty array, one per line. -/
def renderElemsJson : List Json → Nat → List Char
  | [], _ => []
  | [x], lvl => indentStr lvl ++ renderJson x lvl
  | x :: y :: xs, lvl =>
    indentStr lvl ++ renderJson x lvl ++ ',' :: '\n' :: renderElemsJson (y :: xs) lvl

/-- Render the members of a nonempty object, one per line. -/
def renderFieldsJson : List (List Char × Json) → Nat → List Char
  | [], _ => []
  | [(k, v)], lvl =>
    indentStr lvl ++ '"' :: (escapeStr k ++ '"' :: ':' :: ' ' :: renderJson v lvl)
  | (k, v) :: f :: fs, lvl =>
    indentStr lvl ++ '"' :: (escapeStr k ++ '"' :: ':' :: ' ' :: renderJson v lvl) ++
      ',' :: '\n' :: renderFieldsJson (f :: fs) lvl

end

/-- One entry of the ConversationLog as the program builds it: a dict with
string `role`, `content` and `timestamp` fields. -/
structure Msg where
  role : List Char
  content : List Char
  timestamp : List Char

/-- JSON image of one conversation message dict. -/
def msgJson (m : Msg) : Json :=
  .obj [(("role").toList, .str m.role), (("content").toList, .str m.content),
    (("timestamp").toList, .str m.timestamp)]

/-- The document `save_conversation` serializes: session metadata plus the
conversation list (`gemma_interactive.py` lines 152-157). -/
def conversationData (sessionStart model host : List Char) (hist : List Msg) : Json :=
  .obj [(("session_start").toList, .str sessionStart),
    (("model").toList, .str model),
    (("host").toList, .str host),
    (("conversation").toList, .arr (hist.map msgJson))]

/-- The text `save_conversation` writes to the file:
`json.dump(conversation_data, f, indent=2, ensure_ascii=False)`. -/
def save_conversation_text (sessionStart model host : List Char)
    (hist : List Msg) : List Char :=
  renderJson (conversationData sessionStart model host hist) 0

/-- The load operation on a parsed document (`load_conversation`,
`gemma_interactive.py` lines 166-177; `PhiChat.load` lines 106-113): an
unreadable file or a parse failure is caught with the prior history kept;
a parsed non-object raises `AttributeError` at `data.get`, also caught with
the prior history kept; a parsed object unconditionally replaces the
history with its `conversation` value (default `[]`), after which
rendering `len(...)` of a value with no length raises, reported as a load
error although the replacement already happened.  The Bool records whether
the operation reported success. -/
def load_conversation (doc : Option Json) (hist : Json) : Json × Bool :=
  match doc with
  | none => (hist, false)
  | some (.obj fields) =>
    match pyLen (objLookupD fields ("conversation").toList (.arr [])) with
    | some _ => (objLookupD fields ("conversation").toList (.arr []), true)
    | none => (objLookupD fields ("conversation").toList (.arr []), false)
  | some _ => (hist, false)

/-- The load operation from the file level: `none` models an unreadable
path (`open` raises), otherwise the text is parsed with `json.loads`. -/
def load_conversation_text (file : Option (List Char)) (hist : Json) : Json × Bool :=
  match file with
  | none => (hist, false)
  | some text => load_conversation (jsonLoads text) hist

end Serialization

section RoundTrip

theorem hexVal_hexChar (m : Nat) (h : m < 16) : hexVal (hexChar m) = some m := by
  interval_cases m <;> decide

theorem parseStringBody_close (rest : List Char) :
    parseStringBody ('"' :: rest) = some ([], rest) := by
  rw [parseStringBody.eq_def]
  simp

theorem parseStringBody_esc2 (e c2 : Char) (he : unescapeChar e = some c2)
    (hne : e ≠ 'u') (tail : List Char) :
    parseStringBody ('\\' :: e :: tail) =
      (parseStringBody tail).map fun p => (c2 :: p.1, p.2) := by
  rw [parseStringBody.eq_def]
  simp [hne, he]

theorem parseStringBody_u (h1 h2 h3 h4 : Char) (a b c2 d : Nat)
    (ha : hexVal h1 = some a) (hb : hexVal h2 = some b)
    (hc : hexVal h3 = some c2) (hd : hexVal h4 = some d) (tail : List Char) :
    parseStringBody ('\\' :: 'u' :: h1 :: h2 :: h3 :: h4 :: tail) =
      (parseStringBody tail).map fun p =>
        (Char.ofNat (((a * 16 + b) * 16 + c2) * 16 + d) :: p.1, p.2) := by
  rw [parseStringBody.eq_def]
  simp [ha, hb, hc, hd]

theorem parseStringBody_raw {c : Char} (h1 : c ≠ '"') (h2 : c ≠ '\\')
    (h3 : ¬c.toNat < 32) (tail : List Char) :
    parseStringBody (c :: tail) =
      (parseStringBody tail).map fun p => (c :: p.1, p.2) := by
  rw [parseStringBody.eq_def]
  simp [h1, h2, h3]

/-- The escape of one character always reads back as that character. -/
theorem parseStringBody_escapeChar (c : Char) (tail : List Char) :
    parseStringBody (escapeChar c ++ tail) =
      (parseStringBody tail).map fun p => (c :: p.1, p.2) := by
  unfold escapeChar
  by_cases e1 : c = '"'
  · subst e1
    rw [if_pos rfl, show (['\\', '"'] : List Char) ++ tail = '\\' :: '"' :: tail from rfl]
    rw [parseStringBody_esc2 '"' '"' (by decide) (by decide) tail]
  rw [if_neg e1]
  by_cases e2 : c = '\\'
  · subst e2
    rw [if_pos rfl, show (['\\', '\\'] : List Char) ++ tail = '\\' :: '\\' :: tail from rfl]
    rw [parseStringBody_esc2 '\\' '\\' (by decide) (by decide) tail]
  rw [if_neg e2]
  by_cases e3 : c = '\n'
  · subst e3
    rw [if_pos rfl, show (['\\', 'n'] : List Char) ++ tail = '\\' :: 'n' :: tail from rfl]
    rw [parseStringBody_esc2 'n' '\n' (by decide) (by decide) tail]
  rw [if_neg e3]
  by_cases e4 : c = '\t'
  · subst e4
    rw [if_pos rfl, show (['\\', 't'] : List Char) ++ tail = '\\' :: 't' :: tail from rfl]
    rw [parseStringBody_esc2 't' '\t' (by decide) (by decide) tail]
  rw [if_neg e4]
  by_cases e5 : c = '\r'
  · subst e5
    rw [if_pos rfl, show (['\\', 'r'] : List Char) ++ tail = '\\' :: 'r' :: tail from rfl]
    rw [parseStringBody_esc2 'r' '\r' (by decide) (by decide) tail]
  rw [if_neg e5]
  by_cases e6 : c.toNat = 8
  · rw [if_pos e6, show (['\\', 'b'] : List Char) ++ tail = '\\' :: 'b' :: tail from rfl]
    have hc : c = Char.ofNat 8 := by
      rw [← e6, Char.ofNat_toNat]
    rw [parseStringBody_esc2 'b' (Char.ofNat 8) (by decide) (by decide) tail, ← hc]
  rw [if_neg e6]
  by_cases e7 : c.toNat = 12
  · rw [if_pos e7, show (['\\', 'f'] : List Char) ++ tail = '\\' :: 'f' :: tail from rfl]
    have hc : c = Char.ofNat 12 := by
      rw [← e7, Char.ofNat_toNat]
    rw [parseStringBody_esc2 'f' (Char.ofNat 12) (by decide) (by decide) tail, ← hc]
  rw [if_neg e7]
  by_cases e8 : c.toNat < 32
  · rw [if_pos e8, show (['\\', 'u', '0', '0', hexChar (c.toNat / 16),
      hexChar (c.toNat % 16)] : List Char) ++ tail =
        '\\' :: 'u' :: '0' :: '0' :: hexChar (c.toNat / 16) ::
          hexChar (c.toNat % 16) :: tail from rfl]
    rw [parseStringBody_u '0' '0' (hexChar (c.toNat / 16)) (hexChar (c.toNat % 16))
      0 0 (c.toNat / 16) (c.toNat % 16) (by decide) (by decide)
      (hexVal_hexChar (c.toNat / 16) (by omega))
      (hexVal_hexChar (c.toNat % 16) (Nat.mod_lt _ (by omega))) tail]
    have harith : ((0 * 16 + 0) * 16 + c.toNat / 16) * 16 + c.toNat % 16 = c.toNat := by
      omega
    rw [harith, Char.ofNat_toNat]
  rw [if_neg e8]
  rw [show ([c] : List Char) ++ tail = c :: tail from rfl]
  exact parseStringBody_raw e1 e2 e8 tail

/-- The escaped body of a string followed by a closing quote reads back as
exactly that string. -/
theorem parseStringBody_escape : ∀ (s rest : List Char),
    parseStringBody (escapeStr s ++ '"' :: rest) = some (s, rest)
  | [], rest => parseStringBody_close rest
  | c :: s, rest => by
    rw [show escapeStr (c :: s) = escapeChar c ++ escapeStr s from rfl,
      List.append_assoc, parseStringBody_escapeChar,
      parseStringBody_escape s rest]
    rfl

/-- A character sequence made of insignificant whitespace only. -/
def WsOnly (w : List Char) : Prop :=
  ∀ c ∈ w, isWs c = true

theorem skipWs_ws_append {w : List Char} (hw : WsOnly w) (s : List Char) :
    skipWs (w ++ s) = skipWs s := by
  induction w with
  | nil => rfl
  | cons c cs ih =>
    rw [List.cons_append,
      show skipWs (c :: (cs ++ s)) =
        if isWs c then skipWs (cs ++ s) else c :: (cs ++ s) from rfl,
      if_pos (hw c (by simp)), ih (fun c2 hc2 => hw c2 (by simp [hc2]))]

theorem skipWs_not_ws {c : Char} (h : isWs c = false) (s : List Char) :
    skipWs (c :: s) = c :: s := by
  rw [show skipWs (c :: s) = if isWs c then skipWs s else c :: s from rfl, h]
  simp

theorem wsOnly_indent (lvl : Nat) : WsOnly (indentStr lvl) := by
  intro c hc
  rw [indentStr, List.mem_replicate] at hc
  simp [hc.2, isWs]

theorem wsOnly_nil : WsOnly [] := by
  intro c hc
  simp at hc

theorem wsOnly_cons {c : Char} {w : List Char} (h1 : isWs c = true)
    (h2 : WsOnly w) : WsOnly (c :: w) := by
  intro c2 hc2
  rcases List.mem_cons.mp hc2 with h | h
  · rw [h, h1]
  · exact h2 c2 h

theorem wsOnly_append {v w : List Char} (h1 : WsOnly v) (h2 : WsOnly w) :
    WsOnly (v ++ w) := by
  intro c hc
  rcases List.mem_append.mp hc with h | h
  · exact h1 c h
  · exact h2 c h

/-- A rendered string value, under any whitespace padding, parses back as
itself. -/
theorem parseValue_str (fuel : Nat) {w : List Char} (hw : WsOnly w)
    (s rest : List Char) :
    parseValue (fuel + 1) (w ++ ('"' :: (escapeStr s ++ '"' :: rest))) =
      some (.str s, rest) := by
  rw [parseValue.eq_def]
  simp only [Nat.add_one]
  rw [skipWs_ws_append hw, skipWs_not_ws (by decide)]
  simp [parseStringBody_escape]

theorem parseValue_obj_emptyBraces (fuel : Nat) {w : List Char} (hw : WsOnly w)
    (rest : List Char) :
    parseValue (fuel + 1) (w ++ ('{' :: '}' :: rest)) = some (.obj [], rest) := by
  rw [parseValue.eq_def]
  simp only [Nat.add_one]
  rw [skipWs_ws_append hw, skipWs_not_ws (by decide)]
  simp [skipWs, isWs]

theorem parseValue_arr_emptyBrackets (fuel : Nat) {w : List Char} (hw : WsOnly w)
    (rest : List Char) :
    parseValue (fuel + 1) (w ++ ('[' :: ']' :: rest)) = some (.arr [], rest) := by
  rw [parseValue.eq_def]
  simp only [Nat.add_one]
  rw [skipWs_ws_append hw, skipWs_not_ws (by decide)]
  simp [skipWs, isWs]

theorem parseValue_obj_nonempty (fuel : Nat) {w : List Char} (hw : WsOnly w)
    {afterBrace : List Char} {c2 : Char} {r2 : List Char}
    (hs : skipWs afterBrace = c2 :: r2) (hne : c2 ≠ '}') :
    parseValue (fuel + 1) (w ++ ('{' :: afterBrace)) =
      (parseMembers fuel afterBrace).map fun p => (Json.obj p.1, p.2) := by
  rw [parseValue.eq_def]
  simp only [Nat.add_one]
  rw [skipWs_ws_append hw, skipWs_not_ws (by decide)]
  simp [hs, hne]

theorem parseValue_arr_nonempty (fuel : Nat) {w : List Char} (hw : WsOnly w)
    {afterBracket : List Char} {c2 : Char} {r2 : List Char}
    (hs : skipWs afterBracket = c2 :: r2) (hne : c2 ≠ ']') :
    parseValue (fuel + 1) (w ++ ('[' :: afterBracket)) =
      (parseElems fuel afterBracket).map fun p => (Json.arr p.1, p.2) := by
  rw [parseValue.eq_def]
  simp only [Nat.add_one]
  rw [skipWs_ws_append hw, skipWs_not_ws (by decide)]
  simp [hs, hne]

theorem parseMembers_parse (fuel : Nat) {s0 s1 k s2 s3 s5 : List Char}
    {v : Json} {s4 : List Char} {c3 : Char}
    (h0 : skipWs s0 = '"' :: s1)
    (h1 : parseStringBody s1 = some (k, s2))
    (h2 : skipWs s2 = ':' :: s3)
    (h3 : parseValue fuel s3 = some (v, s4))
    (h4 : skipWs s4 = c3 :: s5) :
    parseMembers (fuel + 1) s0 =
      if c3 = ',' then (parseMembers fuel s5).map fun p => ((k, v) :: p.1, p.2)
      else if c3 = '}' then some ([(k, v)], s5)
      else none := by
  rw [parseMembers.eq_def]
  simp only [Nat.add_one]
  rw [h0]
  simp [h1, h2, h3, h4]

theorem parseElems_parse (fuel : Nat) {s0 : List Char} {v : Json}
    {s1 s2 : List Char} {c : Char}
    (h0 : parseValue fuel s0 = some (v, s1))
    (h1 : skipWs s1 = c :: s2) :
    parseElems (fuel + 1) s0 =
      if c = ',' then (parseElems fuel s2).map fun p => (v :: p.1, p.2)
      else if c = ']' then some ([v], s2)
      else none := by
  rw [parseElems.eq_def]
  simp only [Nat.add_one]
  rw [h0]
  simp [h1]

mutual

/-- Fuel needed to parse a rendered value back. -/
def jweight : Json → Nat
  | .null => 1
  | .bool _ => 1
  | .num _ => 1
  | .str _ => 1
  | .arr xs => 1 + jweightList xs
  | .obj fs => 1 + jweightFields fs

/-- Fuel needed to parse rendered array elements back. -/
def jweightList : List Json → Nat
  | [] => 0
  | x :: xs => jweight x + 1 + jweightList xs

/-- Fuel needed to parse rendered object members back. -/
def jweightFields : List (List Char × Json) → Nat
  | [] => 0
  | (_, v) :: fs => jweight v + 1 + jweightFields fs

end

/-- Values built from strings, arrays and objects only — the shape of every
document the program serializes (no numbers, booleans or nulls). -/
inductive StrLike : Json → Prop where
  | str (s : List Char) : StrLike (.str s)
  | arr (xs : List Json) : (∀ x ∈ xs, StrLike x) → StrLike (.arr xs)
  | obj (fs : List (List Char × Json)) :
      (∀ kv ∈ fs, StrLike kv.2) → StrLike (.obj fs)

theorem renderJson_head (v : Json) (hv : StrLike v) (lvl : Nat) :
    ∃ c cs, renderJson v lvl = c :: cs ∧ isWs c = false ∧
      c ≠ ']' ∧ c ≠ '}' ∧ c ≠ ',' := by
  cases hv with
  | str s =>
    refine ⟨'"', escapeStr s ++ ['"'], ?_, by decide, by decide, by decide, by decide⟩
    simp [renderJson]
  | arr xs h =>
    cases xs with
    | nil =>
      refine ⟨'[', [']'], ?_, by decide, by decide, by decide, by decide⟩
      simp [renderJson]
    | cons x xs =>
      refine ⟨'[', '\n' :: (renderElemsJson (x :: xs) (lvl + 1) ++
        '\n' :: (indentStr lvl ++ [']'])), ?_, by decide, by decide, by decide, by decide⟩
      simp [renderJson]
  | obj fs h =>
    cases fs with
    | nil =>
      refine ⟨'{', ['}'], ?_, by decide, by decide, by decide, by decide⟩
      simp [renderJson]
    | cons f fs =>
      refine ⟨'{', '\n' :: (renderFieldsJson (f :: fs) (lvl + 1) ++
        '\n' :: (indentStr lvl ++ ['}'])), ?_, by decide, by decide, by decide, by decide⟩
      simp [renderJson]

/-- First significant character of a rendered value followed by anything:
the value's opening token, never a closing bracket or separator. -/
theorem skipWs_render (v : Json) (hv : StrLike v) (lvl : Nat) (tail : List Char) :
    ∃ c cs, skipWs (renderJson v lvl ++ tail) = c :: (cs ++ tail) ∧
      renderJson v lvl = c :: cs ∧ c ≠ ']' ∧ c ≠ '}' := by
  obtain ⟨c, cs, hr, hws, h1, h2, _⟩ := renderJson_head v hv lvl
  refine ⟨c, cs, ?_, hr, h1, h2⟩
  rw [hr, List.cons_append, skipWs_not_ws hws]

theorem wsOnly_nl : WsOnly ['\n'] := wsOnly_cons (by decide) wsOnly_nil

theorem wsOnly_space : WsOnly [' '] := wsOnly_cons (by decide) wsOnly_nil

theorem renderElems_shape (x : Json) (xs : List Json) (lvl : Nat) :
    ∃ E2, renderElemsJson (x :: xs) lvl = indentStr lvl ++ (renderJson x lvl ++ E2) := by
  cases xs with
  | nil => exact ⟨[], by simp [renderElemsJson]⟩
  | cons y ys =>
    exact ⟨',' :: '\n' :: renderElemsJson (y :: ys) lvl, by simp [renderElemsJson]⟩

theorem renderFields_shape (k : List Char) (v : Json)
    (fs : List (List Char × Json)) (lvl : Nat) :
    ∃ R, renderFieldsJson ((k, v) :: fs) lvl = indentStr lvl ++ ('"' :: R) := by
  cases fs with
  | nil =>
    exact ⟨escapeStr k ++ ('"' :: ':' :: ' ' :: renderJson v lvl),
      by simp [renderFieldsJson]⟩
  | cons f fs2 =>
    exact ⟨escapeStr k ++ ('"' :: ':' :: ' ' ::
      (renderJson v lvl ++ (',' :: '\n' :: renderFieldsJson (f :: fs2) lvl))),
      by simp [renderFieldsJson]⟩

mutual

/-- A rendered value, under any whitespace padding and with any trailing
text, parses back as exactly itself. -/
theorem renderParse_val : ∀ (v : Json), StrLike v → ∀ (lvl fuel : Nat)
    (w rest : List Char), WsOnly w →
    parseValue (fuel + jweight v) (w ++ (renderJson v lvl ++ rest)) = some (v, rest)
  | .null, hv, _, _, _, _, _ => by cases hv
  | .bool b, hv, _, _, _, _, _ => by cases hv
  | .num n, hv, _, _, _, _, _ => by cases hv
  | .str s, _, lvl, fuel, w, rest, hw => by
    rw [show renderJson (.str s) lvl = '"' :: (escapeStr s ++ ['"']) from by
      simp [renderJson]]
    rw [show ('"' :: (escapeStr s ++ ['"'])) ++ rest =
      '"' :: (escapeStr s ++ '"' :: rest) from by simp]
    rw [show fuel + jweight (.str s) = fuel + 1 from by simp [jweight]]
    exact parseValue_str fuel hw s rest
  | .arr [], _, lvl, fuel, w, rest, hw => by
    rw [show renderJson (.arr []) lvl = '[' :: ']' :: [] from by simp [renderJson]]
    rw [show (('[' :: ']' :: []) ++ rest) = '[' :: ']' :: rest from by simp]
    rw [show fuel + jweight (.arr []) = fuel + 1 from by
      simp [jweight, jweightList]]
    exact parseValue_arr_emptyBrackets fuel hw rest
  | .obj [], _, lvl, fuel, w, rest, hw => by
    rw [show renderJson (.obj []) lvl = '{' :: '}' :: [] from by simp [renderJson]]
    rw [show (('{' :: '}' :: []) ++ rest) = '{' :: '}' :: rest from by simp]
    rw [show fuel + jweight (.obj []) = fuel + 1 from by
      simp [jweight, jweightFields]]
    exact parseValue_obj_emptyBraces fuel hw rest
  | .arr (x :: xs), hv, lvl, fuel, w, rest, hw => by
    have hx : StrLike x := by
      cases hv with
      | arr _ h => exact h x (by simp)
    have hxs : ∀ y ∈ xs, StrLike y := by
      cases hv with
      | arr _ h => exact fun y hy => h y (by simp [hy])
    obtain ⟨E2, hE⟩ := renderElems_shape x xs (lvl + 1)
    obtain ⟨c, cs, hskip, hrender, hc1, hc2⟩ := skipWs_render x hx (lvl + 1)
      (E2 ++ ('\n' :: (indentStr lvl ++ (']' :: rest))))
    rw [show renderJson (.arr (x :: xs)) lvl ++ rest =
      '[' :: ('\n' :: (renderElemsJson (x :: xs) (lvl + 1) ++
        ('\n' :: (indentStr lvl ++ (']' :: rest))))) from by simp [renderJson]]
    rw [show fuel + jweight (.arr (x :: xs)) =
      (fuel + jweightList (x :: xs)) + 1 from by simp [jweight]; omega]
    have hs : skipWs ('\n' :: (renderElemsJson (x :: xs) (lvl + 1) ++
        ('\n' :: (indentStr lvl ++ (']' :: rest))))) =
        c :: (cs ++ (E2 ++ ('\n' :: (indentStr lvl ++ (']' :: rest))))) := by
      rw [show ('\n' :: (renderElemsJson (x :: xs) (lvl + 1) ++
        ('\n' :: (indentStr lvl ++ (']' :: rest))))) =
        ['\n'] ++ (renderElemsJson (x :: xs) (lvl + 1) ++
          ('\n' :: (indentStr lvl ++ (']' :: rest)))) from rfl]
      rw [skipWs_ws_append wsOnly_nl, hE, List.append_assoc, List.append_assoc,
        skipWs_ws_append (wsOnly_indent _)]
      exact hskip
    rw [parseValue_arr_nonempty (fuel + jweightList (x :: xs)) hw hs hc1]
    rw [show ('\n' :: (renderElemsJson (x :: xs) (lvl + 1) ++
      ('\n' :: (indentStr lvl ++ (']' :: rest))))) =
      ['\n'] ++ (renderElemsJson (x :: xs) (lvl + 1) ++
        ('\n' :: (indentStr lvl ++ (']' :: rest)))) from rfl]
    rw [renderParse_elems x xs hx hxs lvl fuel ['\n'] rest wsOnly_nl]
    rfl
  | .obj ((k, v) :: fs), hv, lvl, fuel, w, rest, hw => by
    have hkv : StrLike v := by
      cases hv with
      | obj _ h => exact h (k, v) (by simp)
    have hfs : ∀ kv ∈ fs, StrLike kv.2 := by
      cases hv with
      | obj _ h => exact fun kv hkv2 => h kv (by simp [hkv2])
    obtain ⟨R, hR⟩ := renderFields_shape k v fs (lvl + 1)
    rw [show renderJson (.obj ((k, v) :: fs)) lvl ++ rest =
      '{' :: ('\n' :: (renderFieldsJson ((k, v) :: fs) (lvl + 1) ++
        ('\n' :: (indentStr lvl ++ ('}' :: rest))))) from by simp [renderJson]]
    rw [show fuel + jweight (.obj ((k, v) :: fs)) =
      (fuel + jweightFields ((k, v) :: fs)) + 1 from by simp [jweight]; omega]
    have hs : skipWs ('\n' :: (renderFieldsJson ((k, v) :: fs) (lvl + 1) ++
        ('\n' :: (indentStr lvl ++ ('}' :: rest))))) =
        '"' :: (R ++ ('\n' :: (indentStr lvl ++ ('}' :: rest)))) := by
      rw [show ('\n' :: (renderFieldsJson ((k, v) :: fs) (lvl + 1) ++
        ('\n' :: (indentStr lvl ++ ('}' :: rest))))) =
        ['\n'] ++ (renderFieldsJson ((k, v) :: fs) (lvl + 1) ++
          ('\n' :: (indentStr lvl ++ ('}' :: rest)))) from rfl]
      rw [skipWs_ws_append wsOnly_nl, hR, List.append_assoc, List.cons_append,
        skipWs_ws_append (wsOnly_indent _), skipWs_not_ws (by decide)]
    rw [parseValue_obj_nonempty (fuel + jweightFields ((k, v) :: fs)) hw hs
      (by decide)]
    rw [show ('\n' :: (renderFieldsJson ((k, v) :: fs) (lvl + 1) ++
      ('\n' :: (indentStr lvl ++ ('}' :: rest))))) =
      ['\n'] ++ (renderFieldsJson ((k, v) :: fs) (lvl + 1) ++
        ('\n' :: (indentStr lvl ++ ('}' :: rest)))) from rfl]
    rw [renderParse_fields k v fs hkv hfs lvl fuel ['\n'] rest wsOnly_nl]
    rfl
termination_by v _ _ _ _ _ _ => sizeOf v

/-- Rendered array elements followed by the array's closing line parse back
as exactly those elements. -/
theorem renderParse_elems : ∀ (x : Json) (xs : List Json), StrLike x →
    (∀ y ∈ xs, StrLike y) → ∀ (lvl fuel : Nat) (w rest : List Char), WsOnly w →
    parseElems (fuel + jweightList (x :: xs))
      (w ++ (renderElemsJson (x :: xs) (lvl + 1) ++
        ('\n' :: (indentStr lvl ++ (']' :: rest))))) = some (x :: xs, rest)
  | x, [], hx, _, lvl, fuel, w, rest, hw => by
    rw [show renderElemsJson [x] (lvl + 1) ++
      ('\n' :: (indentStr lvl ++ (']' :: rest))) =
      indentStr (lvl + 1) ++ (renderJson x (lvl + 1) ++
        ('\n' :: (indentStr lvl ++ (']' :: rest)))) from by simp [renderElemsJson]]
    rw [show fuel + jweightList [x] = (fuel + jweight x) + 1 from by
      simp [jweightList]; omega]
    have h0 : parseValue (fuel + jweight x)
        (w ++ (indentStr (lvl + 1) ++ (renderJson x (lvl + 1) ++
          ('\n' :: (indentStr lvl ++ (']' :: rest)))))) =
        some (x, '\n' :: (indentStr lvl ++ (']' :: rest))) := by
      rw [← List.append_assoc]
      exact renderParse_val x hx (lvl + 1) fuel (w ++ indentStr (lvl + 1))
        ('\n' :: (indentStr lvl ++ (']' :: rest)))
        (wsOnly_append hw (wsOnly_indent _))
    have h1 : skipWs ('\n' :: (indentStr lvl ++ (']' :: rest))) = ']' :: rest := by
      rw [show ('\n' :: (indentStr lvl ++ (']' :: rest))) =
        ['\n'] ++ (indentStr lvl ++ (']' :: rest)) from rfl,
        skipWs_ws_append wsOnly_nl, skipWs_ws_append (wsOnly_indent _),
        skipWs_not_ws (by decide)]
    rw [parseElems_parse (fuel + jweight x) h0 h1]
    simp
  | x, y :: ys, hx, hys, lvl, fuel, w, rest, hw => by
    have hy : StrLike y := hys y (by simp)
    have hys2 : ∀ z ∈ ys, StrLike z := fun z hz => hys z (by simp [hz])
    rw [show renderElemsJson (x :: y :: ys) (lvl + 1) ++
      ('\n' :: (indentStr lvl ++ (']' :: rest))) =
      indentStr (lvl + 1) ++ (renderJson x (lvl + 1) ++
        (',' :: ('\n' :: (renderElemsJson (y :: ys) (lvl + 1) ++
          ('\n' :: (indentStr lvl ++ (']' :: rest))))))) from by
        simp [renderElemsJson]]
    rw [show fuel + jweightList (x :: y :: ys) =
      ((fuel + jweightList (y :: ys)) + jweight x) + 1 from by
        simp [jweightList]; omega]
    have h0 : parseValue ((fuel + jweightList (y :: ys)) + jweight x)
        (w ++ (indentStr (lvl + 1) ++ (renderJson x (lvl + 1) ++
          (',' :: ('\n' :: (renderElemsJson (y :: ys) (lvl + 1) ++
            ('\n' :: (indentStr lvl ++ (']' :: rest))))))))) =
        some (x, ',' :: ('\n' :: (renderElemsJson (y :: ys) (lvl + 1) ++
          ('\n' :: (indentStr lvl ++ (']' :: rest)))))) := by
      rw [← List.append_assoc]
      exact renderParse_val x hx (lvl + 1) (fuel + jweightList (y :: ys))
        (w ++ indentStr (lvl + 1)) _ (wsOnly_append hw (wsOnly_indent _))
    have h1 : skipWs (',' :: ('\n' :: (renderElemsJson (y :: ys) (lvl + 1) ++
        ('\n' :: (indentStr lvl ++ (']' :: rest)))))) =
        ',' :: ('\n' :: (renderElemsJson (y :: ys) (lvl + 1) ++
          ('\n' :: (indentStr lvl ++ (']' :: rest))))) :=
      skipWs_not_ws (by decide) _
    rw [parseElems_parse ((fuel + jweightList (y :: ys)) + jweight x) h0 h1]
    rw [if_pos rfl]
    rw [show (fuel + jweightList (y :: ys)) + jweight x =
      (fuel + jweight x) + jweightList (y :: ys) from by omega]
    rw [show ('\n' :: (renderElemsJson (y :: ys) (lvl + 1) ++
      ('\n' :: (indentStr lvl ++ (']' :: rest))))) =
      ['\n'] ++ (renderElemsJson (y :: ys) (lvl + 1) ++
        ('\n' :: (indentStr lvl ++ (']' :: rest)))) from rfl]
    rw [renderParse_elems y ys hy hys2 lvl (fuel + jweight x) ['\n'] rest wsOnly_nl]
    rfl
termination_by x xs _ _ _ _ _ _ _ => 1 + sizeOf x + sizeOf xs

/-- Rendered object members followed by the object's closing line parse
back as exactly those members. -/
theorem renderParse_fields : ∀ (k : List Char) (v : Json)
    (fs : List (List Char × Json)), StrLike v → (∀ kv ∈ fs, StrLike kv.2) →
    ∀ (lvl fuel : Nat) (w rest : List Char), WsOnly w →
    parseMembers (fuel + jweightFields ((k, v) :: fs))
      (w ++ (renderFieldsJson ((k, v) :: fs) (lvl + 1) ++
        ('\n' :: (indentStr lvl ++ ('}' :: rest))))) = some ((k, v) :: fs, rest)
  | k, v, [], hv, _, lvl, fuel, w, rest, hw => by
    rw [show renderFieldsJson [(k, v)] (lvl + 1) ++
      ('\n' :: (indentStr lvl ++ ('}' :: rest))) =
      indentStr (lvl + 1) ++ ('"' :: (escapeStr k ++
        ('"' :: ':' :: ' ' :: (renderJson v (lvl + 1) ++
          ('\n' :: (indentStr lvl ++ ('}' :: rest))))))) from by
        simp [renderFieldsJson]]
    rw [show fuel + jweightFields [(k, v)] = (fuel + jweight v) + 1 from by
      simp [jweightFields]; omega]
    have h0 : skipWs (w ++ (indentStr (lvl + 1) ++ ('"' :: (escapeStr k ++
        ('"' :: ':' :: ' ' :: (renderJson v (lvl + 1) ++
          ('\n' :: (indentStr lvl ++ ('}' :: rest))))))))) =
        '"' :: (escapeStr k ++ ('"' :: ':' :: ' ' :: (renderJson v (lvl + 1) ++
          ('\n' :: (indentStr lvl ++ ('}' :: rest)))))) := by
      rw [skipWs_ws_append hw, skipWs_ws_append (wsOnly_indent _),
        skipWs_not_ws (by decide)]
    have h1 : parseStringBody (escapeStr k ++ ('"' :: ':' :: ' ' ::
        (renderJson v (lvl + 1) ++ ('\n' :: (indentStr lvl ++ ('}' :: rest)))))) =
        some (k, ':' :: ' ' :: (renderJson v (lvl + 1) ++
          ('\n' :: (indentStr lvl ++ ('}' :: rest))))) :=
      parseStringBody_escape k _
    have h2 : skipWs (':' :: ' ' :: (renderJson v (lvl + 1) ++
        ('\n' :: (indentStr lvl ++ ('}' :: rest))))) =
        ':' :: (' ' :: (renderJson v (lvl + 1) ++
          ('\n' :: (indentStr lvl ++ ('}' :: rest))))) :=
      skipWs_not_ws (by decide) _
    have h3 : parseValue (fuel + jweight v) (' ' :: (renderJson v (lvl + 1) ++
        ('\n' :: (indentStr lvl ++ ('}' :: rest))))) =
        some (v, '\n' :: (indentStr lvl ++ ('}' :: rest))) := by
      rw [show (' ' :: (renderJson v (lvl + 1) ++
        ('\n' :: (indentStr lvl ++ ('}' :: rest))))) =
        [' '] ++ (renderJson v (lvl + 1) ++
          ('\n' :: (indentStr lvl ++ ('}' :: rest)))) from rfl]
      exact renderParse_val v hv (lvl + 1) fuel [' '] _ wsOnly_space
    have h4 : skipWs ('\n' :: (indentStr lvl ++ ('}' :: rest))) = '}' :: rest := by
      rw [show ('\n' :: (indentStr lvl ++ ('}' :: rest))) =
        ['\n'] ++ (indentStr lvl ++ ('}' :: rest)) from rfl,
        skipWs_ws_append wsOnly_nl, skipWs_ws_append (wsOnly_indent _),
        skipWs_not_ws (by decide)]
    rw [parseMembers_parse (fuel + jweight v) h0 h1 h2 h3 h4]
    simp
  | k, v, (k2, v2) :: fs2, hv, hfs, lvl, fuel, w, rest, hw => by
    have hv2 : StrLike v2 := hfs (k2, v2) (by simp)
    have hfs2 : ∀ kv ∈ fs2, StrLike kv.2 := fun kv hkv => hfs kv (by simp [hkv])
    rw [show renderFieldsJson ((k, v) :: (k2, v2) :: fs2) (lvl + 1) ++
      ('\n' :: (indentStr lvl ++ ('}' :: rest))) =
      indentStr (lvl + 1) ++ ('"' :: (escapeStr k ++
        ('"' :: ':' :: ' ' :: (renderJson v (lvl + 1) ++
          (',' :: ('\n' :: (renderFieldsJson ((k2, v2) :: fs2) (lvl + 1) ++
            ('\n' :: (indentStr lvl ++ ('}' :: rest)))))))))) from by
        simp [renderFieldsJson]]
    rw [show fuel + jweightFields ((k, v) :: (k2, v2) :: fs2) =
      ((fuel + jweightFields ((k2, v2) :: fs2)) + jweight v) + 1 from by
        simp [jweightFields]; omega]
    have h0 : skipWs (w ++ (indentStr (lvl + 1) ++ ('"' :: (escapeStr k ++
        ('"' :: ':' :: ' ' :: (renderJson v (lvl + 1) ++
          (',' :: ('\n' :: (renderFieldsJson ((k2, v2) :: fs2) (lvl + 1) ++
            ('\n' :: (indentStr lvl ++ ('}' :: rest)))))))))))) =
        '"' :: (escapeStr k ++ ('"' :: ':' :: ' ' :: (renderJson v (lvl + 1) ++
          (',' :: ('\n' :: (renderFieldsJson ((k2, v2) :: fs2) (lvl + 1) ++
            ('\n' :: (indentStr lvl ++ ('}' :: rest))))))))) := by
      rw [skipWs_ws_append hw, skipWs_ws_append (wsOnly_indent _),
        skipWs_not_ws (by decide)]
    have h1 : parseStringBody (escapeStr k ++ ('"' :: ':' :: ' ' ::
        (renderJson v (lvl + 1) ++ (',' :: ('\n' ::
          (renderFieldsJson ((k2, v2) :: fs2) (lvl + 1) ++
            ('\n' :: (indentStr lvl ++ ('}' :: rest))))))))) =
        some (k, ':' :: ' ' :: (renderJson v (lvl + 1) ++
          (',' :: ('\n' :: (renderFieldsJson ((k2, v2) :: fs2) (lvl + 1) ++
            ('\n' :: (indentStr lvl ++ ('}' :: rest)))))))) :=
      parseStringBody_escape k _
    have h2 : skipWs (':' :: ' ' :: (renderJson v (lvl + 1) ++
        (',' :: ('\n' :: (renderFieldsJson ((k2, v2) :: fs2) (lvl + 1) ++
          ('\n' :: (indentStr lvl ++ ('}' :: rest)))))))) =
        ':' :: (' ' :: (renderJson v (lvl + 1) ++
          (',' :: ('\n' :: (renderFieldsJson ((k2, v2) :: fs2) (lvl + 1) ++
            ('\n' :: (indentStr lvl ++ ('}' :: rest)))))))) :=
      skipWs_not_ws (by decide) _
    have h3 : parseValue ((fuel + jweightFields ((k2, v2) :: fs2)) + jweight v)
        (' ' :: (renderJson v (lvl + 1) ++
          (',' :: ('\n' :: (renderFieldsJson ((k2, v2) :: fs2) (lvl + 1) ++
            ('\n' :: (indentStr lvl ++ ('}' :: rest)))))))) =
        some (v, ',' :: ('\n' :: (renderFieldsJson ((k2, v2) :: fs2) (lvl + 1) ++
          ('\n' :: (indentStr lvl ++ ('}' :: rest)))))) := by
      rw [show (' ' :: (renderJson v (lvl + 1) ++
        (',' :: ('\n' :: (renderFieldsJson ((k2, v2) :: fs2) (lvl + 1) ++
          ('\n' :: (indentStr lvl ++ ('}' :: rest)))))))) =
        [' '] ++ (renderJson v (lvl + 1) ++
          (',' :: ('\n' :: (renderFieldsJson ((k2, v2) :: fs2) (lvl + 1) ++
            ('\n' :: (indentStr lvl ++ ('}' :: rest))))))) from rfl]
      exact renderParse_val v hv (lvl + 1) (fuel + jweightFields ((k2, v2) :: fs2))
        [' '] _ wsOnly_space
    have h4 : skipWs (',' :: ('\n' :: (renderFieldsJson ((k2, v2) :: fs2)
        (lvl + 1) ++ ('\n' :: (indentStr lvl ++ ('}' :: rest)))))) =
        ',' :: ('\n' :: (renderFieldsJson ((k2, v2) :: fs2) (lvl + 1) ++
          ('\n' :: (indentStr lvl ++ ('}' :: rest))))) :=
      skipWs_not_ws (by decide) _
    rw [parseMembers_parse ((fuel + jweightFields ((k2, v2) :: fs2)) + jweight v)
      h0 h1 h2 h3 h4]
    rw [if_pos rfl]
    rw [show (fuel + jweightFields ((k2, v2) :: fs2)) + jweight v =
      (fuel + jweight v) + jweightFields ((k2, v2) :: fs2) from by omega]
    rw [show ('\n' :: (renderFieldsJson ((k2, v2) :: fs2) (lvl + 1) ++
      ('\n' :: (indentStr lvl ++ ('}' :: rest))))) =
      ['\n'] ++ (renderFieldsJson ((k2, v2) :: fs2) (lvl + 1) ++
        ('\n' :: (indentStr lvl ++ ('}' :: rest)))) from rfl]
    rw [renderParse_fields k2 v2 fs2 hv2 hfs2 lvl (fuel + jweight v) ['\n']
      rest wsOnly_nl]
    rfl
termination_by _ v fs _ _ _ _ _ _ _ => 1 + sizeOf v + sizeOf fs

end

theorem strLike_msgJson (m : Msg) : StrLike (msgJson m) := by
  refine StrLike.obj _ ?_
  intro kv hkv
  simp [msgJson] at hkv
  rcases hkv with h | h | h <;> subst h <;> exact StrLike.str _

theorem strLike_conversationData (ss model host : List Char) (hist : List Msg) :
    StrLike (conversationData ss model host hist) := by
  refine StrLike.obj _ ?_
  intro kv hkv
  simp [conversationData] at hkv
  rcases hkv with h | h | h | h
  · subst h
    exact StrLike.str _
  · subst h
    exact StrLike.str _
  · subst h
    exact StrLike.str _
  · subst h
    refine StrLike.arr _ ?_
    intro x hx
    simp at hx
    obtain ⟨m, _, hm⟩ := hx
    rw [← hm]
    exact strLike_msgJson m

theorem jweight_msgJson (m : Msg) : jweight (msgJson m) = 7 := by
  simp [msgJson, jweight, jweightFields]

theorem jweightList_msgs (hist : List Msg) :
    jweightList (hist.map msgJson) = 8 * hist.length := by
  induction hist with
  | nil => simp [jweightList]
  | cons m t ih =>
    simp [jweightList, jweight_msgJson, ih]
    omega

theorem jweight_doc (ss model host : List Char) (hist : List Msg) :
    jweight (conversationData ss model host hist) = 8 * hist.length + 9 := by
  simp [conversationData, jweight, jweightFields, jweightList_msgs]
  omega

theorem renderJson_msg_len (m : Msg) (lvl : Nat) :
    8 ≤ (renderJson (msgJson m) lvl).length := by
  simp [renderJson, msgJson, renderFieldsJson, indentStr, escapeStr, escapeChar]
  omega

theorem renderElems_msgs_len (m : Msg) (hist : List Msg) (lvl : Nat) :
    8 * (hist.length + 1) ≤
      (renderElemsJson (msgJson m :: hist.map msgJson) lvl).length := by
  induction hist generalizing m with
  | nil =>
    have := renderJson_msg_len m lvl
    simp [renderElemsJson]
    omega
  | cons m2 t ih =>
    have h1 := renderJson_msg_len m lvl
    have h2 := ih m2
    simp [renderElemsJson] at h2 ⊢
    omega

theorem renderDoc_len (ss model host : List Char) (hist : List Msg) :
    8 * hist.length + 8 ≤
      (renderJson (conversationData ss model host hist) 0).length := by
  cases hist with
  | nil =>
    simp [conversationData, renderJson, renderFieldsJson, renderElemsJson,
      indentStr, escapeStr, escapeChar]
  | cons m t =>
    have hE := renderElems_msgs_len m t 2
    simp [conversationData, renderJson, renderFieldsJson, indentStr,
      escapeStr, escapeChar]
    omega

/-- C4: saving a ConversationLog whose messages carry string role, content
and timestamp fields and then loading the written text into a fresh (or
any) store succeeds and reproduces exactly the original entries — same
roles, contents and timestamps, in the same order. -/
theorem save_load_roundtrip (ss model host : List Char) (hist : List Msg)
    (prior : Json) :
    load_conversation_text (some (save_conversation_text ss model host hist))
      prior = (Json.arr (hist.map msgJson), true) := by
  have hlen := renderDoc_len ss model host hist
  have hparse : parseValue ((save_conversation_text ss model host hist).length + 1)
      (save_conversation_text ss model host hist) =
      some (conversationData ss model host hist, []) := by
    have h := renderParse_val (conversationData ss model host hist)
      (strLike_conversationData ss model host hist) 0
      ((renderJson (conversationData ss model host hist) 0).length + 1 -
        (8 * hist.length + 9)) [] [] wsOnly_nil
    rw [List.nil_append, List.append_nil, jweight_doc] at h
    rw [show (save_conversation_text ss model host hist).length + 1 =
      ((renderJson (conversationData ss model host hist) 0).length + 1 -
        (8 * hist.length + 9)) + (8 * hist.length + 9) from by
      rw [show save_conversation_text ss model host hist =
        renderJson (conversationData ss model host hist) 0 from rfl]
      omega]
    exact h
  have hloads : jsonLoads (save_conversation_text ss model host hist) =
      some (conversationData ss model host hist) := by
    rw [jsonLoads, hparse]
    simp [skipWs]
  rw [load_conversation_text, hloads]
  rw [show conversationData ss model host hist =
    Json.obj [(("session_start").toList, Json.str ss),
      (("model").toList, Json.str model), (("host").toList, Json.str host),
      (("conversation").toList, Json.arr (hist.map msgJson))] from rfl]
  rw [load_conversation]
  simp [objLookupD, objLookup, pyLen]

end RoundTrip

section Session

/-- A user entry as the turn loop builds it (`gemma_interactive.py` lines
317-321). -/
def userMsg (content ts : List Char) : Msg :=
  ⟨("user").toList, content, ts⟩

/-- An assistant entry as the turn loop builds it (lines 339-343). -/
def assistantMsg (content ts : List Char) : Msg :=
  ⟨("assistant").toList, content, ts⟩

/-- One streaming-mode turn of the interactive loop (`run_interactive`,
`gemma_interactive.py` lines 316-347; `PhiChat.run` lines 206-231): the
user message is appended, `stream_message` renders the decoded fragments to
the terminal, and the append of an assistant message at line 338 is guarded
by `not streaming_mode`, so it never runs on a streaming turn (the phi
variant likewise has no streaming-side append, noting "No single response
text captured in streaming mode").  The result pairs the new log with what
the decoder produced. -/
def streaming_turn (log : List Msg) (input ts : List Char)
    (chunks : List (List Char)) : List Msg × (List Json × StreamEnd) :=
  (log ++ [userMsg input ts], decodeStream chunks)

/-- One complete-mode turn (`run_interactive` lines 316-343; `PhiChat.run`
lines 206-229): the user message is appended; `send_message` yields `none`
on a transport/HTTP error and otherwise the payload's `response` string;
the assistant message is appended only when `if response:` holds — the
response is non-None and nonempty — else an error line is rendered and the
turn ends with `continue`.  The Bool records whether the failure message
was rendered. -/
def complete_turn (log : List Msg) (input uts ats : List Char)
    (response : Option (List Char)) : List Msg × Bool :=
  let log1 := log ++ [userMsg input uts]
  match response with
  | some r => if !r.isEmpty then (log1 ++ [assistantMsg r ats], false) else (log1, true)
  | none => (log1, true)

/-- C1 counterexample: a streaming turn whose stream terminates with a
clean `done` record — fragments `He` and `llo` decoded, status `done` —
still appends no assistant message: the log after the turn holds only the
user message, while the claim requires the concatenation `Hello` to be
appended as one assistant message. -/
theorem streaming_clean_done_no_assistant :
    streaming_turn [] ("hi").toList ("t1").toList
        [("\x7b\"response\":\"He\"\x7d\n\x7b\"response\":\"llo\"\x7d\n\x7b\"done\":true\x7d\n").toList] =
      ([userMsg ("hi").toList ("t1").toList],
        ([Json.str ("He").toList, Json.str ("llo").toList], StreamEnd.done)) := by
  rfl

/-- C1 amended: in streaming mode the decoded fragments are only rendered
to the terminal; no assistant message is ever appended, whether the stream
ends in a clean `done`, runs out, or fails, and the user message remains
the last log entry without a reply. -/
theorem streaming_turn_never_appends (log : List Msg) (input ts : List Char)
    (chunks : List (List Char)) :
    (streaming_turn log input ts chunks).1 = log ++ [userMsg input ts] ∧
    (streaming_turn log input ts chunks).1.getLast? = some (userMsg input ts) ∧
    (∀ m ∈ (streaming_turn log input ts chunks).1,
      m.role = ("assistant").toList → m ∈ log) := by
  refine ⟨rfl, by simp [streaming_turn], ?_⟩
  intro m hm hrole
  simp [streaming_turn] at hm
  rcases hm with h | h
  · exact h
  · subst h
    simp [userMsg] at hrole

/-- Witness for the amended C1 at a concrete clean-`done` streaming turn. -/
theorem streaming_turn_never_appends_witness :
    (streaming_turn [] ("hi").toList ("t1").toList
      [("\x7b\"done\":true\x7d\n").toList]).1 =
      [userMsg ("hi").toList ("t1").toList] := by
  have h := streaming_turn_never_appends [] ("hi").toList ("t1").toList
    [("\x7b\"done\":true\x7d\n").toList]
  rw [h.1]
  simp

/-- C10: when the complete-mode service call succeeds but its response text
is the empty string, the turn is handled exactly like a failed call: the
error line is rendered, no assistant message is appended, and the user
message stays the last entry. -/
theorem complete_turn_empty_response (log : List Msg) (input uts ats : List Char) :
    complete_turn log input uts ats (some []) = (log ++ [userMsg input uts], true) ∧
    complete_turn log input uts ats (some []) =
      complete_turn log input uts ats none := by
  constructor <;> rfl

/-- C2 counterexample: the document `{"conversation": 5}` is valid JSON but
a malformed transcript; loading it replaces the in-memory log with `5`
before the length rendering raises, so the operation errors yet the prior
ConversationLog is not preserved. -/
theorem load_malformed_mutates :
    load_conversation (some (Json.obj [(("conversation").toList, Json.num 5)]))
        (Json.arr [msgJson (userMsg ("hi").toList ("t1").toList)]) =
      (Json.num 5, false) ∧
    Json.num 5 ≠ Json.arr [msgJson (userMsg ("hi").toList ("t1").toList)] :=
  ⟨rfl, fun h => Json.noConfusion h⟩

/-- C2 amended: an unreadable path, an unparseable document, or a document
parsing to a non-object fails with an error and leaves the prior log
untouched; but any document parsing to an object unconditionally replaces
the log with the object's `conversation` value (default the empty list),
even when that value is not a well-formed transcript — an error is then
reported only when the value has no length, and after the replacement. -/
theorem load_conversation_behaviour :
    (∀ hist : Json, load_conversation none hist = (hist, false)) ∧
    (∀ (hist j : Json), (∀ fields, j ≠ Json.obj fields) →
      load_conversation (some j) hist = (hist, false)) ∧
    (∀ (hist : Json) (fields : List (List Char × Json)),
      (load_conversation (some (Json.obj fields)) hist).1 =
        objLookupD fields ("conversation").toList (Json.arr [])) := by
  refine ⟨fun hist => rfl, ?_, ?_⟩
  · intro hist j hne
    cases j with
    | obj fields => exact absurd rfl (hne fields)
    | null => rfl
    | bool b => rfl
    | num n => rfl
    | str s => rfl
    | arr xs => rfl
  · intro hist fields
    rw [load_conversation]
    cases pyLen (objLookupD fields ("conversation").toList (Json.arr [])) <;> rfl

/-- Witness for the amended C2: a document parsing to a bare number is
rejected with the prior log intact. -/
theorem load_conversation_behaviour_witness :
    load_conversation (some (Json.num 3)) (Json.arr []) = (Json.arr [], false) :=
  load_conversation_behaviour.2.1 (Json.arr []) (Json.num 3)
    (fun fields h => Json.noConfusion h)

end Session

section Commands

/-- Result of a `/model <name>` command: the model bound afterwards and
whether a not-found error was reported. -/
structure ModelCmd where
  model : List Char
  errored : Bool

/-- Model of Python `str.lower()` on the ASCII range commands use. -/
def pyLower (s : List Char) : List Char :=
  s.map Char.toLower

/-- Model of Python `str.split()` with no argument on space-separated
command lines: split on runs of spaces, yielding no empty tokens. -/
def pySplitGo : List Char → List Char → List (List Char)
  | [], acc => if acc.isEmpty then [] else [acc.reverse]
  | c :: rest, acc =>
    if c = ' ' then
      if acc.isEmpty then pySplitGo rest [] else acc.reverse :: pySplitGo rest []
    else pySplitGo rest (c :: acc)

/-- Tokenization of one command line. -/
def pySplit (s : List Char) : List (List Char) :=
  pySplitGo s []

/-- The `/model` branch of the gemma dispatcher (`gemma_interactive.py`
lines 273-294): line 274 lowercases the entire input line before splitting
(`command = user_input.lower().split()`), so both the comparison against
the available models and the stored name use the lowercased argument.
Inputs that are not a `/model <name>` command leave the model unchanged
without a not-found report. -/
def gemma_model_command (input : List Char) (models : List (List Char))
    (cur : List Char) : ModelCmd :=
  let command := pySplit (pyLower input)
  match command with
  | cmd0 :: arg :: _ =>
    if cmd0 = ("/model").toList then
      if arg ∈ models then ⟨arg, false⟩ else ⟨cur, true⟩
    else ⟨cur, false⟩
  | _ => ⟨cur, false⟩

/-- The `/model` branch of the phi dispatcher (`phi_interactive.py` lines
170-187): only the command token is lowercased (`cmd = parts[0].lower()`);
the argument keeps its case. -/
def phi_model_command (input : List Char) (models : List (List Char))
    (cur : List Char) : ModelCmd :=
  let parts := pySplit input
  match parts with
  | p0 :: p1 :: _ =>
    if pyLower p0 = ("/model").toList then
      if p1 ∈ models then ⟨p1, false⟩ else ⟨cur, true⟩
    else ⟨cur, false⟩
  | _ => ⟨cur, false⟩

/-- C7 counterexample: `listModels()` reports `Gemma` and the user issues
`/model Gemma`; the claim requires rebinding to exactly `Gemma`, but the
gemma variant lowercases the whole line, finds `gemma` absent from the
list, reports not-found and leaves the model unchanged. -/
theorem model_command_case_counterexample :
    gemma_model_command ("/model Gemma").toList [("Gemma").toList]
      ("old").toList = ⟨("old").toList, true⟩ := by
  rfl

/-- C7 amended: the phi variant behaves as claimed — a `/model <name>`
command rebinds to exactly `<name>` when it is listed and otherwise leaves
the model unchanged with a not-found report; the gemma variant first
lowercases the entire line, so presence is tested for the lowercased name
and rebinding stores the lowercased name. -/
theorem model_command_behaviour :
    (∀ (input : List Char) (models : List (List Char)) (cur p0 name : List Char),
      pySplit input = [p0, name] → pyLower p0 = ("/model").toList →
      phi_model_command input models cur =
        if name ∈ models then ⟨name, false⟩ else ⟨cur, true⟩) ∧
    (∀ (input : List Char) (models : List (List Char)) (cur lname : List Char),
      pySplit (pyLower input) = [("/model").toList, lname] →
      gemma_model_command input models cur =
        if lname ∈ models then ⟨lname, false⟩ else ⟨cur, true⟩) := by
  constructor
  · intro input models cur p0 name hsplit hlow
    rw [phi_model_command]
    simp only [hsplit, hlow]
    simp
  · intro input models cur lname hsplit
    rw [gemma_model_command]
    simp only [hsplit]
    simp

/-- Witness for the amended C7: `/model Foo` rebinds phi to `Foo` exactly;
`/model foo` rebinds gemma to `foo`. -/
theorem model_command_behaviour_witness :
    phi_model_command ("/model Foo").toList [("Foo").toList] ("old").toList =
      ⟨("Foo").toList, false⟩ ∧
    gemma_model_command ("/model foo").toList [("foo").toList] ("old").toList =
      ⟨("foo").toList, false⟩ := by
  constructor
  · have h := model_command_behaviour.1 ("/model Foo").toList [("Foo").toList]
      ("old").toList ("/model").toList ("Foo").toList (by rfl) (by rfl)
    rw [h, if_pos (by decide)]
  · have h := model_command_behaviour.2 ("/model foo").toList [("foo").toList]
      ("old").toList ("foo").toList (by rfl)
    rw [h, if_pos (by decide)]

end Commands

section Monotonicity

/-- Lexicographic comparison of timestamp strings by character code, under
which equal-format ISO-8601 timestamps order chronologically. -/
def tsLe : List Char → List Char → Bool
  | [], _ => true
  | _ :: _, [] => false
  | a :: as, b :: bs =>
    if a.toNat < b.toNat then true
    else if a.toNat = b.toNat then tsLe as bs
    else false

/-- Timestamp monotonicity of a log: every entry's timestamp is at least
its predecessor's. -/
def monotonicB : List Msg → Bool
  | [] => true
  | [_] => true
  | a :: b :: rest => tsLe a.timestamp b.timestamp && monotonicB (b :: rest)

/-- The log-mutating session operations: the user/assistant appends of the
turn loop (`gemma_interactive.py` lines 316-321 and 337-343), `/clear`
(line 301), and `/load` (line 299), which replaces the log wholesale with
the file's conversation list. -/
inductive SessionOp where
  | appendUser (content ts : List Char) : SessionOp
  | appendAssistant (content ts : List Char) : SessionOp
  | clear : SessionOp
  | load (msgs : List Msg) : SessionOp

/-- Effect of one session operation on the ConversationLog. -/
def applyOp (log : List Msg) : SessionOp → List Msg
  | .appendUser c ts => log ++ [userMsg c ts]
  | .appendAssistant c ts => log ++ [assistantMsg c ts]
  | .clear => []
  | .load msgs => msgs

/-- C8 counterexample: `/load` installs the file's entries verbatim, so
loading a transcript whose two entries carry timestamps out of order
leaves the ConversationLog non-monotonic after the operation — against the
claim that the log is timestamp-monotonic after every session operation,
load included. -/
theorem load_breaks_monotonicity :
    monotonicB (applyOp [] (SessionOp.load
      [userMsg ("a").toList ("2025-01-02T00:00:00").toList,
        assistantMsg ("b").toList ("2025-01-01T00:00:00").toList])) = false := by
  rfl

theorem monotonicB_append_one : ∀ (log : List Msg) (m : Msg),
    monotonicB log = true →
    (∀ m2, log.getLast? = some m2 → tsLe m2.timestamp m.timestamp = true) →
    monotonicB (log ++ [m]) = true
  | [], m, _, _ => rfl
  | [a], m, _, h2 => by
    simp [monotonicB]
    exact h2 a rfl
  | a :: b :: rest, m, h1, h2 => by
    simp [monotonicB] at h1
    simp [monotonicB]
    refine ⟨h1.1, ?_⟩
    have := monotonicB_append_one (b :: rest) m h1.2
      (fun m2 hm2 => h2 m2 (by rw [List.getLast?_cons_cons]; exact hm2))
    simpa [monotonicB] using this

/-- C8 amended: an append whose timestamp is at least the last entry's —
which the appends of the turn loop satisfy, their timestamps coming from
the monotone wall clock — preserves timestamp monotonicity, and `/clear`
restores it trivially; `/load` installs the file's entries verbatim, so
after a load the log is monotonic exactly when the loaded transcript
itself is. -/
theorem session_ops_monotonic :
    (∀ (log : List Msg) (c ts : List Char), monotonicB log = true →
      (∀ m2, log.getLast? = some m2 → tsLe m2.timestamp ts = true) →
      monotonicB (applyOp log (SessionOp.appendUser c ts)) = true ∧
      monotonicB (applyOp log (SessionOp.appendAssistant c ts)) = true) ∧
    (∀ log : List Msg, monotonicB (applyOp log SessionOp.clear) = true) ∧
    (∀ (log : List Msg) (msgs : List Msg),
      monotonicB (applyOp log (SessionOp.load msgs)) = monotonicB msgs) := by
  refine ⟨?_, fun log => rfl, fun log msgs => rfl⟩
  intro log c ts h1 h2
  exact ⟨monotonicB_append_one log (userMsg c ts) h1 h2,
    monotonicB_append_one log (assistantMsg c ts) h1 h2⟩

/-- Witness for the amended C8 at a concrete log and timestamps. -/
theorem session_ops_monotonic_witness :
    monotonicB (applyOp [userMsg ("hi").toList ("2025-01-01").toList]
      (SessionOp.appendAssistant ("ok").toList ("2025-01-02").toList)) = true :=
  (session_ops_monotonic.1 [userMsg ("hi").toList ("2025-01-01").toList]
    ("ok").toList ("2025-01-02").toList rfl
    (fun m2 hm2 => by
      simp at hm2
      rw [← hm2]
      rfl)).2

end Monotonicity

section History

/-- Preview of one entry's content in the gemma history listing
(`gemma_interactive.py` line 220): content truncated to its first 100
characters, with an ellipsis marker appended when longer. -/
def gemmaPreview (content : List Char) : List Char :=
  if content.length > 100 then content.take 100 ++ ("...").toList else content

/-- Preview in the phi listing (`phi_interactive.py` line 128): the first
80 characters plus an ellipsis marker when longer. -/
def phiPreview (content : List Char) : List Char :=
  content.take 80 ++ (if content.length > 80 then ("...").toList else [])

/-- One rendered line of the gemma history listing (line 222):
`{i}. {role}: {preview}`. -/
def gemmaHistoryLine (i : Nat) (m : Msg) : List Char :=
  (toString i).toList ++ (". ").toList ++ m.role ++ (": ").toList ++
    gemmaPreview m.content

/-- One rendered line of the phi listing (line 129). -/
def phiHistoryLine (i : Nat) (m : Msg) : List Char :=
  (toString i).toList ++ (". ").toList ++ m.role ++ (": ").toList ++
    phiPreview m.content

/-- The entry loop of `show_history` / `history`: one line per entry in
log order, numbered from 1 (`enumerate(self.conversation_history, 1)`). -/
def show_history_go (line : Nat → Msg → List Char) (i : Nat) :
    List Msg → List (List Char)
  | [] => []
  | m :: rest => line i m :: show_history_go line (i + 1) rest

/-- The rendered entry lines of the gemma `show_history`. -/
def show_history_lines (hist : List Msg) : List (List Char) :=
  show_history_go gemmaHistoryLine 1 hist

/-- The rendered entry lines of the phi `history`. -/
def phi_history_lines (hist : List Msg) : List (List Char) :=
  show_history_go phiHistoryLine 1 hist

theorem show_history_go_length (line : Nat → Msg → List Char) :
    ∀ (hist : List Msg) (i : Nat), (show_history_go line i hist).length = hist.length
  | [], _ => rfl
  | _ :: rest, i => by
    simp [show_history_go, show_history_go_length line rest (i + 1)]

theorem show_history_go_get? (line : Nat → Msg → List Char) :
    ∀ (hist : List Msg) (k i : Nat),
      (show_history_go line k hist).get? i = (hist.get? i).map fun m => line (k + i) m
  | [], _, _ => by simp [show_history_go]
  | m :: rest, k, 0 => by simp [show_history_go]
  | m :: rest, k, i + 1 => by
    simp only [show_history_go, List.get?_cons_succ]
    rw [show k + (i + 1) = (k + 1) + i from by omega]
    exact show_history_go_get? line rest (k + 1) i

/-- C9: the history command renders exactly one line per ConversationLog
entry, oldest first — the line at position `i` presents entry `i`,
numbered `i + 1` — and the content portion of each line is a prefix of the
entry's content of at most 100 characters (the first 100 in the gemma
variant, the first 80 in phi), followed only by an ellipsis marker when
the content was truncated. -/
theorem history_renders (hist : List Msg) :
    (show_history_lines hist).length = hist.length ∧
    (phi_history_lines hist).length = hist.length ∧
    (∀ i : Nat, (show_history_lines hist).get? i =
      (hist.get? i).map fun m => gemmaHistoryLine (i + 1) m) ∧
    (∀ i : Nat, (phi_history_lines hist).get? i =
      (hist.get? i).map fun m => phiHistoryLine (i + 1) m) ∧
    (∀ c : List Char, (gemmaPreview c = c ∧ c.length ≤ 100) ∨
      (gemmaPreview c = c.take 100 ++ ("...").toList ∧ (c.take 100).length ≤ 100)) ∧
    (∀ c : List Char, ∃ n ≤ 100,
      phiPreview c = c.take n ++ ("...").toList ∨ phiPreview c = c.take n) := by
  refine ⟨show_history_go_length _ hist 1, show_history_go_length _ hist 1,
    ?_, ?_, ?_, ?_⟩
  · intro i
    rw [show_history_lines, show_history_go_get?]
    rw [show 1 + i = i + 1 from by omega]
  · intro i
    rw [phi_history_lines, show_history_go_get?]
    rw [show 1 + i = i + 1 from by omega]
  · intro c
    by_cases h : c.length > 100
    · right
      constructor
      · simp [gemmaPreview, h]
      · simp
    · left
      constructor
      · simp [gemmaPreview, h]
      · omega
  · intro c
    by_cases h : c.length > 80
    · exact ⟨80, by omega, Or.inl (by simp [phiPreview, h])⟩
    · refine ⟨80, by omega, Or.inr ?_⟩
      simp [phiPreview, h]

end History

end OllamaChat
